import Mathlib

/-!
Verification of the evidence-registry / citation-rendering / loop-control core of
`app/agent.py`.

The embedding keeps the Python source's structure:

* Python `dict`s become insertion-ordered association lists (`List (κ × ν)`);
  `dlookup` is dictionary lookup and `dset` is dictionary assignment
  (update-in-place when the key is present, append otherwise).
* `collect_research_sources_callback` becomes `collect_research_sources`, a pure
  state transformer on `RegState` (the `url_to_short_id` and `sources` entries of
  the shared callback state); each invocation receives the session event list it
  observes at that time.
* floats (confidence scores) are modelled as rationals (`ℚ`); `0.5` is `1/2`.
* `citation_replacement_callback`'s two `re.sub` passes become `subCite` (the
  citation-marker substitution) and `cleanup` (whitespace-before-punctuation
  collapsing), composed in `render`.  Both are fuel-indexed structural
  recursions (fuel = input length, always sufficient) so that they compute in
  the kernel; `subCiteAux_congr`/`cleanupAux_congr` show the fuel is irrelevant
  once adequate.
* `EscalationChecker._run_async_impl` becomes the predicate `escalationCheck`.
-/

/-! ### Python dictionaries as insertion-ordered association lists -/

/-- Python `d[k]` / `d.get(k)`: first (unique) binding of `k`. -/
def dlookup {κ ν : Type} [DecidableEq κ] (k : κ) : List (κ × ν) → Option ν
  | [] => none
  | p :: ps => if p.1 = k then some p.2 else dlookup k ps

/-- Python `d[k] = v`: overwrite in place if `k` is present, else append
(insertion order is preserved, as for a Python `dict`). -/
def dset {κ ν : Type} [DecidableEq κ] (m : List (κ × ν)) (k : κ) (v : ν) : List (κ × ν) :=
  match dlookup k m with
  | some _ => m.map (fun p => if p.1 = k then (k, v) else p)
  | none => m ++ [(k, v)]

/-- The keys of a dictionary, in insertion order. -/
def keysOf {κ ν : Type} (m : List (κ × ν)) : List κ := m.map Prod.fst

/-! ### Data model: grounding events (wire shape consumed by the registry) -/

/-- `chunk.web`: `{uri, title, domain}`. -/
structure WebInfo where
  uri : String
  title : String
  domain : String
deriving DecidableEq

/-- One grounding chunk; `web` is `None` for non-web chunks. -/
structure GroundingChunk where
  web : Option WebInfo
deriving DecidableEq

/-- `support.segment`. -/
structure Segment where
  text : String
deriving DecidableEq

/-- One grounding-support record. -/
structure GroundingSupport where
  segment : Option Segment
  confidence_scores : Option (List ℚ)
  grounding_chunk_indices : Option (List Int)
deriving DecidableEq

/-- `event.grounding_metadata`. -/
structure GroundingMetadata where
  grounding_chunks : Option (List GroundingChunk)
  grounding_supports : Option (List GroundingSupport)
deriving DecidableEq

/-- One session event, as seen by the collection callback. -/
structure SessionEvent where
  grounding_metadata : Option GroundingMetadata
deriving DecidableEq

/-! ### Data model: the registry's stored values -/

/-- An entry of a source's `supported_claims` list. -/
structure ClaimRec where
  text_segment : String
  confidence : ℚ
deriving DecidableEq

/-- A value of the `sources` dictionary.  `title` and `domain` are `Option`s
because the renderer reads them with `dict.get` (absent key ⇒ fallback); the
registry always stores them as `some _`. -/
structure SourceRec where
  short_id : String
  title : Option String
  url : String
  domain : Option String
  supported_claims : List ClaimRec
deriving DecidableEq

/-- The two shared-state entries the registry maintains. -/
structure RegState where
  url_to_short_id : List (String × String)
  sources : List (String × SourceRec)
deriving DecidableEq

/-- `f"src-{n}"`. -/
def mkId (n : Nat) : String := "src-" ++ Nat.repr n

/-- `support.segment.text if support.segment else ""`. -/
def segText (sp : GroundingSupport) : String :=
  match sp.segment with
  | some s => s.text
  | none => ""

/-- `sources[short_id]["supported_claims"].append(c)`.  (In Python an absent
`short_id` would raise `KeyError`; the program only ever appends to ids it has
itself inserted, and the model leaves the dictionary unchanged in that case.) -/
def appendClaim (srcs : List (String × SourceRec)) (sid : String) (c : ClaimRec) :
    List (String × SourceRec) :=
  match dlookup sid srcs with
  | some src => dset srcs sid { src with supported_claims := src.supported_claims ++ [c] }
  | none => srcs

/-! ### The collection callback (`collect_research_sources_callback`) -/

/-- Loop state of the per-event chunk loop: the two dictionaries, the local
`id_counter`, and the event-local `chunks_info` map. -/
structure ChunkAcc where
  url_to_short_id : List (String × String)
  sources : List (String × SourceRec)
  id_counter : Nat
  chunks_info : List (Int × String)
deriving DecidableEq

/-- Body of `for idx, chunk in enumerate(...grounding_chunks)`.  The Python
`if url not in url_to_short_id: ...` insert followed by
`chunks_info[idx] = url_to_short_id[url]` is rendered as a match on the lookup:
when the URL is absent the freshly inserted id is the one read back. -/
def chunkStep (acc : ChunkAcc) (p : Nat × GroundingChunk) : ChunkAcc :=
  match p.2.web with
  | none => acc
  | some w =>
    let url := w.uri
    let title := if w.title ≠ w.domain then w.title else w.domain
    match dlookup url acc.url_to_short_id with
    | some sid =>
      { acc with chunks_info := dset acc.chunks_info (Int.ofNat p.1) sid }
    | none =>
      let short_id := mkId acc.id_counter
      { url_to_short_id := dset acc.url_to_short_id url short_id
        sources := dset acc.sources short_id
          { short_id := short_id, title := some title, url := url,
            domain := some w.domain, supported_claims := [] }
        id_counter := acc.id_counter + 1
        chunks_info := dset acc.chunks_info (Int.ofNat p.1) short_id }

/-- Body of `for i, chunk_idx in enumerate(chunk_indices)`: skip indices absent
from `chunks_info`; otherwise append a claim whose confidence is
`confidence_scores[i] if i < len(confidence_scores) else 0.5`. -/
def supportClaimStep (confidence_scores : List ℚ) (text_segment : String)
    (chunks_info : List (Int × String)) (srcs : List (String × SourceRec))
    (p : Nat × Int) : List (String × SourceRec) :=
  match dlookup p.2 chunks_info with
  | none => srcs
  | some short_id =>
    let confidence : ℚ :=
      if h : p.1 < confidence_scores.length then confidence_scores.get ⟨p.1, h⟩ else 1/2
    appendClaim srcs short_id { text_segment := text_segment, confidence := confidence }

/-- Body of `for support in ...grounding_supports`:
`confidence_scores = support.confidence_scores or []`,
`chunk_indices = support.grounding_chunk_indices or []`. -/
def supportStep (chunks_info : List (Int × String)) (srcs : List (String × SourceRec))
    (sp : GroundingSupport) : List (String × SourceRec) :=
  let confidence_scores := sp.confidence_scores.getD []
  let chunk_indices := sp.grounding_chunk_indices.getD []
  (chunk_indices.enum).foldl (supportClaimStep confidence_scores (segText sp) chunks_info) srcs

/-- Body of `for event in session.events`, threading the local `id_counter`.
`if not (event.grounding_metadata and event.grounding_metadata.grounding_chunks)`
skips events with no metadata, a `None` chunk list, or an *empty* chunk list
(the empty list is falsy); `if event.grounding_metadata.grounding_supports:`
likewise skips a `None` or empty support list, which coincides with folding an
empty list. -/
def processEvent (st : RegState × Nat) (e : SessionEvent) : RegState × Nat :=
  match e.grounding_metadata with
  | none => st
  | some md =>
    match md.grounding_chunks with
    | none => st
    | some [] => st
    | some chunks =>
      let acc := (chunks.enum).foldl chunkStep
        ⟨st.1.url_to_short_id, st.1.sources, st.2, []⟩
      let srcs :=
        match md.grounding_supports with
        | none => acc.sources
        | some sps => sps.foldl (supportStep acc.chunks_info) acc.sources
      (⟨acc.url_to_short_id, srcs⟩, acc.id_counter)

/-- One invocation of `collect_research_sources_callback`: read the two
dictionaries from state (defaulting to empty — that default is the caller's
start state here), set `id_counter = len(url_to_short_id) + 1`, process every
session event, and write the dictionaries back. -/
def collect_research_sources (st : RegState) (events : List SessionEvent) : RegState :=
  (events.foldl processEvent (st, st.url_to_short_id.length + 1)).1

/-- A whole run: the state starts empty and the callback fires once per
invocation, each time over the session event list it observes. -/
def runCallbacks (evss : List (List SessionEvent)) : RegState :=
  evss.foldl collect_research_sources ⟨[], []⟩

/-- The claims currently recorded for a short id (empty when the id is absent). -/
def claimsOf (srcs : List (String × SourceRec)) (sid : String) : List ClaimRec :=
  ((dlookup sid srcs).map SourceRec.supported_claims).getD []

/-- The URLs a single event contributes, in chunk order (events skipped by the
chunk guard contribute none, since they have no chunks). -/
def eventChunks (e : SessionEvent) : List GroundingChunk :=
  match e.grounding_metadata with
  | none => []
  | some md => md.grounding_chunks.getD []

/-- The URL of a chunk, when it has a web reference. -/
def chunkUrl (c : GroundingChunk) : Option String := c.web.map WebInfo.uri

def eventUrls (e : SessionEvent) : List String := (eventChunks e).filterMap chunkUrl

def urlsOfEvents (evs : List SessionEvent) : List String :=
  evs.foldl (fun a e => a ++ eventUrls e) []

def allUrls (evss : List (List SessionEvent)) : List String :=
  evss.foldl (fun a evs => a ++ urlsOfEvents evs) []

/-- Append a URL to the seen list if it is new. -/
def seenInsert (ks : List String) (u : String) : List String :=
  if u ∈ ks then ks else ks ++ [u]

def seenFold (ks : List String) (us : List String) : List String :=
  us.foldl seenInsert ks

/-- First occurrences of a list of URLs, in first-seen order. -/
def dedupFirst (us : List String) : List String := seenFold [] us

/-! ### The citation renderer (`citation_replacement_callback`)

The substitution pattern is `<cite\s+source\s*=\s*["\']?\s*(src-\d+)\s*["\']?\s*/>`.
Every greedy piece of this pattern is followed by a literal that cannot overlap
with it (whitespace runs are followed by non-whitespace literals, the digit run
by a non-digit, the optional quote by non-quote material on its failure path),
so the regex is equivalent to the deterministic parser below, and `re.sub`'s
leftmost-match scan is the character-by-character scan `subCiteAux`. -/

/-- Python `\s` on the ASCII range. -/
def pySpace (c : Char) : Bool :=
  c = ' ' || c = '\t' || c = '\n' || c = '\r' || c = '\x0b' || c = '\x0c'

/-- Consume an exact literal. -/
def dropLit : List Char → List Char → Option (List Char)
  | [], cs => some cs
  | _ :: _, [] => none
  | l :: ls, c :: cs => if c = l then dropLit ls cs else none

/-- `\s+` (greedy, at least one). -/
def ws1 : List Char → Option (List Char)
  | [] => none
  | c :: rest => if pySpace c then some (rest.dropWhile pySpace) else none

/-- `\s*` (greedy). -/
def wsStar (cs : List Char) : List Char := cs.dropWhile pySpace

/-- `["\']?` (greedy optional quote). -/
def optQuote : List Char → List Char
  | [] => []
  | c :: rest => if c = '"' || c = '\'' then rest else c :: rest

/-- The full marker pattern; on success returns the captured group
(`src-` plus the digits) and the remaining input. -/
def parseCite (cs : List Char) : Option (String × List Char) :=
  (dropLit ['<', 'c', 'i', 't', 'e'] cs).bind fun a =>
  (ws1 a).bind fun b =>
  (dropLit ['s', 'o', 'u', 'r', 'c', 'e'] b).bind fun c =>
  (dropLit ['='] (wsStar c)).bind fun d =>
  let e := wsStar (optQuote (wsStar d))
  (dropLit ['s', 'r', 'c', '-'] e).bind fun f =>
  let digits := f.takeWhile Char.isDigit
  let g := f.dropWhile Char.isDigit
  if digits.isEmpty then none
  else
    (dropLit ['/', '>'] (wsStar (optQuote (wsStar g)))).map fun h =>
    (String.mk ('s' :: 'r' :: 'c' :: '-' :: digits), h)

/-- `tag_replacer`: an unknown id is logged and elided (empty replacement); a
known one becomes a single leading space and a Markdown link.  The display text
is `source_info.get("title", source_info.get("domain", short_id))`: the stored
title when the `title` key is present (the registry always stores one, possibly
empty), else the stored domain, else the short id. -/
def tag_replacer (sources : List (String × SourceRec)) (short_id : String) : List Char :=
  match dlookup short_id sources with
  | none => []
  | some source_info =>
    let display_text := source_info.title.getD (source_info.domain.getD short_id)
    (" [" ++ display_text ++ "](" ++ source_info.url ++ ")").data

/-- `re.sub(citation_pattern, tag_replacer, text)`: scan left to right, replace
each match and continue after it, advance one character on failure.  The fuel
(first argument) is consumed once per emitted character or match and never runs
out when it starts at the input length. -/
def subCiteAux (sources : List (String × SourceRec)) : Nat → List Char → List Char
  | 0, cs => cs
  | _ + 1, [] => []
  | fuel + 1, c :: rest =>
    match parseCite (c :: rest) with
    | some (short_id, rem) => tag_replacer sources short_id ++ subCiteAux sources fuel rem
    | none => c :: subCiteAux sources fuel rest

def subCite (sources : List (String × SourceRec)) (cs : List Char) : List Char :=
  subCiteAux sources cs.length cs

/-- The punctuation class of the cleanup pattern `\s+([.,;:])`. -/
def punctChar (c : Char) : Bool := c = '.' || c = ',' || c = ';' || c = ':'

/-- `re.sub(r"\s+([.,;:])", r"\1", text)`: a whitespace run directly followed
by punctuation collapses to the punctuation character alone. -/
def cleanupAux : Nat → List Char → List Char
  | 0, cs => cs
  | _ + 1, [] => []
  | fuel + 1, c :: rest =>
    if pySpace c then
      match rest.dropWhile pySpace with
      | p :: rest2 =>
        if punctChar p then p :: cleanupAux fuel rest2 else c :: cleanupAux fuel rest
      | [] => c :: cleanupAux fuel rest
    else c :: cleanupAux fuel rest

def cleanup (cs : List Char) : List Char := cleanupAux cs.length cs

/-- `citation_replacement_callback`'s text transformation: substitute markers,
then collapse whitespace before punctuation. -/
def render (final_report : String) (sources : List (String × SourceRec)) : String :=
  String.mk (cleanup (subCite sources final_report.data))

/-- Does the text contain a well-formed citation marker anywhere? -/
def hasCite : List Char → Bool
  | [] => false
  | c :: rest => (parseCite (c :: rest)).isSome || hasCite rest

/-! ### The escalation checker and the refinement loop -/

/-- Output schema of the evaluator (`Feedback`); `grade` is `"pass"` or
`"fail"`. -/
structure Feedback where
  grade : String
  comment : String
  follow_up_queries : Option (List String)
deriving DecidableEq

/-- `EscalationChecker._run_async_impl`: escalate iff a `research_evaluation`
value exists in shared state and its grade equals `"pass"`.  (A `None` or empty
result is falsy in the Python conjunction and yields the plain, non-escalating
event.)  The checker writes nothing to state. -/
def escalationCheck (research_evaluation : Option Feedback) : Bool :=
  match research_evaluation with
  | some evaluation_result => evaluation_result.grade == "pass"
  | none => false

/-- The three sub-stages of `iterative_refinement_loop`, in their configured
order. -/
inductive StageTag where
  | evaluator
  | checker
  | refiner
deriving DecidableEq

/-- Modelled from the spec: the `LoopAgent` iteration semantics (§4.4) — the
agent class comes from the external `google.adk` library, not this repository.
A loop with iteration budget `N` runs its sub-stages in fixed order once per
iteration; after a sub-stage signals escalate the loop terminates immediately
(the remaining sub-stages of that iteration are skipped); `N` completed
iterations without escalation terminate the loop gracefully.  The evaluator
writes `research_evaluation` (grade given by `g` at each iteration index) and
the checker (from the source, `escalationCheck`) reads it; the refiner signals
nothing.  The result is the trace: the list of sub-stages run per iteration. -/
def loopTraceAux (g : Nat → Feedback) : Nat → Nat → List (List StageTag)
  | 0, _ => []
  | n + 1, i =>
    if escalationCheck (some (g i)) then [[StageTag.evaluator, StageTag.checker]]
    else [StageTag.evaluator, StageTag.checker, StageTag.refiner] :: loopTraceAux g n (i + 1)

/-- Modelled from the spec: run the loop for at most `N` iterations starting at
iteration index 0. -/
def loopTrace (g : Nat → Feedback) (N : Nat) : List (List StageTag) :=
  loopTraceAux g N 0

/-! ### Dictionary lemmas -/

theorem dlookup_append_of_isSome {κ ν : Type} [DecidableEq κ] {k : κ} {m t : List (κ × ν)}
    {v : ν} (h : dlookup k m = some v) : dlookup k (m ++ t) = some v := by
  induction m with
  | nil => simp [dlookup] at h
  | cons p ps ih =>
    by_cases hp : p.1 = k
    · simpa [dlookup, hp] using by simpa [dlookup, hp] using h
    · simp only [dlookup, hp, if_false, List.cons_append] at h ⊢
      exact ih h

theorem dlookup_isSome_iff_mem {κ ν : Type} [DecidableEq κ] {k : κ} {m : List (κ × ν)} :
    (dlookup k m).isSome ↔ k ∈ keysOf m := by
  induction m with
  | nil => simp [dlookup, keysOf]
  | cons p ps ih =>
    by_cases hp : p.1 = k
    · simp [dlookup, hp, keysOf]
    · simp only [dlookup, hp, if_false, keysOf, List.map_cons, List.mem_cons]
      rw [ih]
      simp [keysOf, Ne.symm hp]

theorem dlookup_eq_none_iff {κ ν : Type} [DecidableEq κ] {k : κ} {m : List (κ × ν)} :
    dlookup k m = none ↔ k ∉ keysOf m := by
  rw [← dlookup_isSome_iff_mem, Option.isSome_iff_exists]
  cases dlookup k m <;> simp

theorem dlookup_append_of_not_mem {κ ν : Type} [DecidableEq κ] {k : κ} {m t : List (κ × ν)}
    (h : k ∉ keysOf m) : dlookup k (m ++ t) = dlookup k t := by
  induction m with
  | nil => simp
  | cons p ps ih =>
    simp only [keysOf, List.map_cons, List.mem_cons] at h
    push_neg at h
    simp only [List.cons_append, dlookup, Ne.symm h.1, if_false]
    exact ih h.2

theorem dset_of_absent {κ ν : Type} [DecidableEq κ] {k : κ} {m : List (κ × ν)} {v : ν}
    (h : dlookup k m = none) : dset m k v = m ++ [(k, v)] := by
  simp [dset, h]

theorem keysOf_append {κ ν : Type} (m t : List (κ × ν)) :
    keysOf (m ++ t) = keysOf m ++ keysOf t := by
  simp [keysOf]

theorem keysOf_mapset {κ ν : Type} [DecidableEq κ] (k : κ) (v : ν) (m : List (κ × ν)) :
    keysOf (m.map fun p => if p.1 = k then (k, v) else p) = keysOf m := by
  induction m with
  | nil => rfl
  | cons p ps ih =>
    by_cases hp : p.1 = k
    · simp [keysOf, hp] at ih ⊢
      exact ih
    · simp [keysOf, hp] at ih ⊢
      exact ih

theorem keysOf_dset_of_present {κ ν : Type} [DecidableEq κ] {k : κ} {m : List (κ × ν)}
    {w : ν} (v : ν) (h : dlookup k m = some w) : keysOf (dset m k v) = keysOf m := by
  simp [dset, h, keysOf_mapset]

theorem dlookup_dset_self {κ ν : Type} [DecidableEq κ] (k : κ) (v : ν) (m : List (κ × ν)) :
    dlookup k (dset m k v) = some v := by
  rcases hm : dlookup k m with _ | w
  · rw [dset_of_absent hm, dlookup_append_of_not_mem (dlookup_eq_none_iff.mp hm)]
    simp [dlookup]
  · simp only [dset, hm]
    induction m with
    | nil => simp [dlookup] at hm
    | cons p ps ih =>
      by_cases hp : p.1 = k
      · simp [dlookup, hp]
      · simp only [dlookup, hp, if_false] at hm
        simp only [List.map_cons, hp, if_false, dlookup]
        exact ih hm

theorem dlookup_dset_of_ne {κ ν : Type} [DecidableEq κ] {k k' : κ} (v : ν)
    (m : List (κ × ν)) (h : k' ≠ k) : dlookup k' (dset m k v) = dlookup k' m := by
  rcases hm : dlookup k m with _ | w
  · rw [dset_of_absent hm]
    by_cases h' : k' ∈ keysOf m
    · obtain ⟨w', hw'⟩ := Option.isSome_iff_exists.mp (dlookup_isSome_iff_mem.mpr h')
      rw [dlookup_append_of_isSome hw', hw']
    · rw [dlookup_append_of_not_mem h']
      simp [dlookup, Ne.symm h, dlookup_eq_none_iff.mpr h']
  · simp only [dset, hm]
    clear hm
    induction m with
    | nil => rfl
    | cons p ps ih =>
      by_cases hp : p.1 = k
      · simp [dlookup, hp, Ne.symm h, ih]
      · simp only [List.map_cons, hp, if_false, dlookup, ih]

/-! ### Injectivity of the decimal short-id rendering -/

/-- Decimal digit list of `n`, most significant first (mirrors what
`Nat.toDigitsCore` pushes onto its accumulator). -/
def repDigits (n : Nat) : List Char :=
  if n < 10 then [Nat.digitChar n]
  else repDigits (n / 10) ++ [Nat.digitChar (n % 10)]
decreasing_by exact Nat.div_lt_self (by omega) (by omega)

theorem toDigitsCore_eq_repDigits :
    ∀ (fuel n : Nat) (ds : List Char), n < fuel →
      Nat.toDigitsCore 10 fuel n ds = repDigits n ++ ds := by
  intro fuel
  induction fuel with
  | zero => omega
  | succ fuel ih =>
    intro n ds hn
    rw [repDigits]
    by_cases h10 : n < 10
    · have hdiv : n / 10 = 0 := by omega
      simp [Nat.toDigitsCore, hdiv, h10, Nat.mod_eq_of_lt h10]
    · have hdiv : n / 10 ≠ 0 := by omega
      have hlt : n / 10 < fuel := by
        have h' : n / 10 < n := Nat.div_lt_self (by omega) (by omega)
        omega
      simp only [Nat.toDigitsCore, hdiv, if_false, h10, if_false]
      rw [ih (n / 10) _ hlt, List.append_assoc]
      rfl

/-- Value of a most-significant-first decimal digit list. -/
def valD (l : List Char) : Nat :=
  l.foldl (fun a c => 10 * a + (c.toNat - 48)) 0

theorem digitChar_val : ∀ n : Nat, n < 10 → (Nat.digitChar n).toNat - 48 = n := by decide

theorem valD_repDigits (n : Nat) : valD (repDigits n) = n := by
  induction n using Nat.strong_induction_on with
  | _ n ih =>
    rw [repDigits]
    by_cases h10 : n < 10
    · simp [valD, h10, List.foldl, digitChar_val n h10]
    · have hlt : n / 10 < n := Nat.div_lt_self (by omega) (by omega)
      simp only [h10, if_false, valD, List.foldl_append, List.foldl]
      have := ih (n / 10) hlt
      simp only [valD] at this
      rw [this, digitChar_val (n % 10) (Nat.mod_lt n (by omega))]
      omega

theorem repr_eq_repDigits (n : Nat) : Nat.repr n = String.mk (repDigits n) := by
  show (Nat.toDigits 10 n).asString = String.mk (repDigits n)
  rw [Nat.toDigits, toDigitsCore_eq_repDigits (n + 1) n [] (by omega), List.append_nil]
  rfl

theorem natRepr_data_injective {m n : Nat} (h : (Nat.repr m).data = (Nat.repr n).data) :
    m = n := by
  rw [repr_eq_repDigits, repr_eq_repDigits] at h
  have hd : repDigits m = repDigits n := h
  have := congrArg valD hd
  rwa [valD_repDigits, valD_repDigits] at this

theorem mkId_injective {m n : Nat} (h : mkId m = mkId n) : m = n := by
  apply natRepr_data_injective
  have hd := congrArg String.data h
  simp only [mkId] at hd
  have h1 : ("src-" ++ Nat.repr m).data = "src-".data ++ (Nat.repr m).data := rfl
  have h2 : ("src-" ++ Nat.repr n).data = "src-".data ++ (Nat.repr n).data := rfl
  rw [h1, h2] at hd
  exact List.append_cancel_left hd

/-! ### Registry invariants -/

/-- The short ids currently assigned, in insertion order. -/
def idsOf (m : List (String × String)) : List String := m.map Prod.snd

/-- The contiguous run `src-1 .. src-k`. -/
def idRun (k : Nat) : List String := (List.range k).map (fun i => mkId (i + 1))

/-- Invariant of a reachable registry state: the assigned ids are exactly
`src-1 .. src-k` in positional order, and the `sources` dictionary is keyed by
those ids in the same order. -/
def GoodState (st : RegState) : Prop :=
  idsOf st.url_to_short_id = idRun st.url_to_short_id.length ∧
  keysOf st.sources = idsOf st.url_to_short_id

instance (st : RegState) : Decidable (GoodState st) := by
  unfold GoodState
  infer_instance

/-- Invariant of the chunk-loop accumulator: additionally, `id_counter` always
equals `len(url_to_short_id) + 1` (it starts there and both advance together at
each insertion). -/
def GoodAcc (acc : ChunkAcc) : Prop :=
  acc.id_counter = acc.url_to_short_id.length + 1 ∧
  idsOf acc.url_to_short_id = idRun acc.url_to_short_id.length ∧
  keysOf acc.sources = idsOf acc.url_to_short_id

theorem idRun_succ (k : Nat) : idRun (k + 1) = idRun k ++ [mkId (k + 1)] := by
  simp [idRun, List.range_succ]

theorem not_mem_idRun_self (k : Nat) : mkId (k + 1) ∉ idRun k := by
  simp only [idRun, List.mem_map, List.mem_range]
  rintro ⟨i, hi, hid⟩
  have := mkId_injective hid
  omega

theorem idsOf_append (m t : List (String × String)) :
    idsOf (m ++ t) = idsOf m ++ idsOf t := by
  simp [idsOf]

theorem chunkStep_good {acc : ChunkAcc} (h : GoodAcc acc) (p : Nat × GroundingChunk) :
    GoodAcc (chunkStep acc p) := by
  obtain ⟨hc, hids, hkeys⟩ := h
  unfold chunkStep
  rcases p.2.web with _ | w
  · exact ⟨hc, hids, hkeys⟩
  rcases hurl : dlookup w.uri acc.url_to_short_id with _ | sid
  · -- new URL: both dictionaries grow by one appended entry
    have hfresh : mkId acc.id_counter ∉ keysOf acc.sources := by
      rw [hkeys, hids, hc]
      exact not_mem_idRun_self _
    have hsrc : dlookup (mkId acc.id_counter) acc.sources = none :=
      dlookup_eq_none_iff.mpr hfresh
    simp only [hurl, dset_of_absent hurl, dset_of_absent hsrc]
    refine ⟨?_, ?_, ?_⟩
    · simp [hc]
    · rw [idsOf_append, hids, hc]
      simp only [List.length_append, List.length_cons, List.length_nil]
      rw [idRun_succ]
      rfl
    · rw [keysOf_append, hkeys, idsOf_append, hc]
      rfl
  · simp only [hurl]
    exact ⟨hc, hids, hkeys⟩

theorem chunkFold_good {ps : List (Nat × GroundingChunk)} {acc : ChunkAcc}
    (h : GoodAcc acc) : GoodAcc (ps.foldl chunkStep acc) := by
  induction ps generalizing acc with
  | nil => exact h
  | cons p ps ih => exact ih (chunkStep_good h p)

theorem appendClaim_keys (srcs : List (String × SourceRec)) (sid : String) (c : ClaimRec) :
    keysOf (appendClaim srcs sid c) = keysOf srcs := by
  unfold appendClaim
  rcases h : dlookup sid srcs with _ | src
  · rfl
  · exact keysOf_dset_of_present _ h

theorem supportClaimStep_keys (cs : List ℚ) (ts : String) (ci : List (Int × String))
    (srcs : List (String × SourceRec)) (p : Nat × Int) :
    keysOf (supportClaimStep cs ts ci srcs p) = keysOf srcs := by
  unfold supportClaimStep
  rcases dlookup p.2 ci with _ | sid
  · rfl
  · exact appendClaim_keys _ _ _

theorem supportClaimFold_keys (cs : List ℚ) (ts : String) (ci : List (Int × String)) :
    ∀ (ps : List (Nat × Int)) (srcs : List (String × SourceRec)),
      keysOf (ps.foldl (supportClaimStep cs ts ci) srcs) = keysOf srcs := by
  intro ps
  induction ps with
  | nil => intro srcs; rfl
  | cons p ps ih =>
    intro srcs
    simp only [List.foldl_cons]
    rw [ih, supportClaimStep_keys]

theorem supportStep_keys (ci : List (Int × String)) (srcs : List (String × SourceRec))
    (sp : GroundingSupport) : keysOf (supportStep ci srcs sp) = keysOf srcs := by
  unfold supportStep
  exact supportClaimFold_keys _ _ _ _ _

theorem supportFoldList_keys (sps : List GroundingSupport) (ci : List (Int × String))
    (srcs : List (String × SourceRec)) :
    keysOf (sps.foldl (supportStep ci) srcs) = keysOf srcs := by
  induction sps generalizing srcs with
  | nil => rfl
  | cons sp sps ih =>
    simp only [List.foldl_cons]
    rw [ih, supportStep_keys]

theorem processEvent_good {st : RegState} {c : Nat} (e : SessionEvent)
    (hc : c = st.url_to_short_id.length + 1) (h : GoodState st) :
    GoodState (processEvent (st, c) e).1 ∧
      (processEvent (st, c) e).2 = (processEvent (st, c) e).1.url_to_short_id.length + 1 := by
  obtain ⟨hids, hkeys⟩ := h
  unfold processEvent
  rcases e.grounding_metadata with _ | md
  · exact ⟨⟨hids, hkeys⟩, hc⟩
  dsimp only
  rcases md.grounding_chunks with _ | (_ | ⟨ch, chunks⟩)
  · exact ⟨⟨hids, hkeys⟩, hc⟩
  · exact ⟨⟨hids, hkeys⟩, hc⟩
  dsimp only
  have hacc : GoodAcc (((ch :: chunks).enum).foldl chunkStep
      ⟨st.url_to_short_id, st.sources, c, []⟩) :=
    chunkFold_good ⟨hc, hids, hkeys⟩
  obtain ⟨hc', hids', hkeys'⟩ := hacc
  rcases md.grounding_supports with _ | sps
  · exact ⟨⟨hids', hkeys'⟩, hc'⟩
  · dsimp only
    refine ⟨⟨hids', ?_⟩, hc'⟩
    rw [supportFoldList_keys]
    exact hkeys'

theorem eventsFold_good {evs : List SessionEvent} {st : RegState} {c : Nat}
    (hc : c = st.url_to_short_id.length + 1) (h : GoodState st) :
    GoodState (evs.foldl processEvent (st, c)).1 ∧
      (evs.foldl processEvent (st, c)).2 =
        (evs.foldl processEvent (st, c)).1.url_to_short_id.length + 1 := by
  induction evs generalizing st c with
  | nil => exact ⟨h, hc⟩
  | cons e evs ih =>
    simp only [List.foldl_cons]
    obtain ⟨h', hc'⟩ := processEvent_good e hc h
    rcases hpe : processEvent (st, c) e with ⟨st', c'⟩
    rw [hpe] at h' hc'
    exact ih hc' h'

theorem collect_good {st : RegState} (evs : List SessionEvent) (h : GoodState st) :
    GoodState (collect_research_sources st evs) :=
  (eventsFold_good rfl h).1

theorem enumFrom_filterMap_snd {α β : Type} (f : α → Option β) :
    ∀ (l : List α) (n : Nat),
      (List.enumFrom n l).filterMap (fun p => f p.2) = l.filterMap f := by
  intro l
  induction l with
  | nil => intro n; rfl
  | cons x xs ih =>
    intro n
    simp only [List.enumFrom, List.filterMap_cons]
    rcases f x with _ | y
    · exact ih (n + 1)
    · rw [ih (n + 1)]

theorem seenFold_append (ks us vs : List String) :
    seenFold ks (us ++ vs) = seenFold (seenFold ks us) vs :=
  List.foldl_append ..

theorem chunkStep_keys (acc : ChunkAcc) (p : Nat × GroundingChunk) :
    keysOf (chunkStep acc p).url_to_short_id =
      match chunkUrl p.2 with
      | none => keysOf acc.url_to_short_id
      | some u => seenInsert (keysOf acc.url_to_short_id) u := by
  unfold chunkStep chunkUrl
  rcases p.2.web with _ | w
  · rfl
  dsimp only [Option.map_some']
  rcases hurl : dlookup w.uri acc.url_to_short_id with _ | sid
  · dsimp only
    rw [dset_of_absent hurl, keysOf_append, seenInsert,
      if_neg (dlookup_eq_none_iff.mp hurl)]
    rfl
  · dsimp only
    rw [seenInsert, if_pos]
    exact dlookup_isSome_iff_mem.mp (hurl ▸ rfl)

theorem chunkFold_keys :
    ∀ (ps : List (Nat × GroundingChunk)) (acc : ChunkAcc),
      keysOf ((ps.foldl chunkStep acc).url_to_short_id) =
        seenFold (keysOf acc.url_to_short_id) (ps.filterMap (fun p => chunkUrl p.2)) := by
  intro ps
  induction ps with
  | nil => intro acc; rfl
  | cons p ps ih =>
    intro acc
    simp only [List.foldl_cons, List.filterMap_cons]
    rw [ih]
    have hstep := chunkStep_keys acc p
    rcases hcu : chunkUrl p.2 with _ | u
    · rw [hcu] at hstep
      dsimp only at hstep
      rw [hstep]
    · rw [hcu] at hstep
      dsimp only at hstep
      rw [hstep]
      rfl

theorem processEvent_keys (st : RegState) (c : Nat) (e : SessionEvent) :
    keysOf (processEvent (st, c) e).1.url_to_short_id =
      seenFold (keysOf st.url_to_short_id) (eventUrls e) := by
  unfold processEvent eventUrls eventChunks
  rcases e.grounding_metadata with _ | md
  · rfl
  dsimp only
  rcases md.grounding_chunks with _ | (_ | ⟨ch, chunks⟩)
  · rfl
  · rfl
  dsimp only [Option.getD_some]
  rw [chunkFold_keys]
  congr 1
  have : (ch :: chunks).enum = List.enumFrom 0 (ch :: chunks) := rfl
  rw [this, enumFrom_filterMap_snd]

/-- `processEvent` does not depend on the claims already recorded when it comes
to the URL index: its index output is determined by the input index and the
event.  (A direct corollary of the shape of the definitions, recorded here as a
stepping stone for accumulator-style inductions.) -/
theorem eventsFold_keys :
    ∀ (evs : List SessionEvent) (st : RegState) (c : Nat),
      keysOf (evs.foldl processEvent (st, c)).1.url_to_short_id =
        seenFold (keysOf st.url_to_short_id) (urlsOfEvents evs) := by
  have hacc : ∀ (evs : List SessionEvent) (a : List String),
      evs.foldl (fun a e => a ++ eventUrls e) a = a ++ urlsOfEvents evs := by
    intro evs
    induction evs with
    | nil => intro a; simp [urlsOfEvents]
    | cons e evs ih =>
      intro a
      simp only [urlsOfEvents, List.foldl_cons, List.nil_append]
      rw [ih, ih (eventUrls e), List.append_assoc]
  intro evs
  induction evs with
  | nil => intro st c; rfl
  | cons e evs ih =>
    intro st c
    simp only [List.foldl_cons]
    rcases hpe : processEvent (st, c) e with ⟨st', c'⟩
    have h1 : keysOf st'.url_to_short_id = seenFold (keysOf st.url_to_short_id) (eventUrls e) := by
      have := processEvent_keys st c e
      rw [hpe] at this
      exact this
    rw [ih st' c', h1, ← seenFold_append]
    congr 1
    simp only [urlsOfEvents, List.foldl_cons, List.nil_append]
    rw [hacc evs (eventUrls e)]
    rfl

theorem collect_keys (st : RegState) (evs : List SessionEvent) :
    keysOf (collect_research_sources st evs).url_to_short_id =
      seenFold (keysOf st.url_to_short_id) (urlsOfEvents evs) :=
  eventsFold_keys evs st _

theorem runCallbacks_keys (evss : List (List SessionEvent)) :
    keysOf (runCallbacks evss).url_to_short_id = dedupFirst (allUrls evss) := by
  have hacc : ∀ (evss : List (List SessionEvent)) (a : List String),
      evss.foldl (fun a evs => a ++ urlsOfEvents evs) a = a ++ allUrls evss := by
    intro evss
    induction evss with
    | nil => intro a; simp [allUrls]
    | cons evs evss ih =>
      intro a
      simp only [allUrls, List.foldl_cons, List.nil_append]
      rw [ih, ih (urlsOfEvents evs), List.append_assoc]
  unfold runCallbacks dedupFirst
  have : ∀ (evss : List (List SessionEvent)) (st : RegState),
      keysOf (evss.foldl collect_research_sources st).url_to_short_id =
        seenFold (keysOf st.url_to_short_id) (allUrls evss) := by
    intro evss
    induction evss with
    | nil => intro st; rfl
    | cons evs evss ih =>
      intro st
      simp only [List.foldl_cons]
      rw [ih, collect_keys, ← seenFold_append]
      congr 1
      simp only [allUrls, List.foldl_cons, List.nil_append]
      rw [hacc evss (urlsOfEvents evs)]
      rfl
  exact this evss ⟨[], []⟩

theorem runCallbacks_good (evss : List (List SessionEvent)) : GoodState (runCallbacks evss) := by
  unfold runCallbacks
  have hinit : GoodState ⟨[], []⟩ := ⟨rfl, rfl⟩
  generalize (⟨[], []⟩ : RegState) = st at hinit ⊢
  induction evss generalizing st with
  | nil => exact hinit
  | cons evs evss ih =>
    simp only [List.foldl_cons]
    exact ih _ (collect_good evs hinit)

theorem dlookup_mem {κ ν : Type} [DecidableEq κ] {k : κ} {m : List (κ × ν)} {v : ν}
    (h : dlookup k m = some v) : (k, v) ∈ m := by
  induction m with
  | nil => simp [dlookup] at h
  | cons p ps ih =>
    rcases p with ⟨pk, pv⟩
    by_cases hp : pk = k
    · simp only [dlookup, hp, if_pos, Option.some.injEq] at h
      subst hp
      subst h
      exact List.mem_cons_self _ _
    · simp only [dlookup, hp, if_false] at h
      exact List.mem_cons_of_mem _ (ih h)

theorem idRun_nodup (k : Nat) : (idRun k).Nodup := by
  refine List.Nodup.map ?_ (List.nodup_range k)
  intro a b hab
  have := mkId_injective hab
  omega

/-- C1: across any number of callback invocations within one run, the
URL→short-id index assigns the contiguous ids `src-1 .. src-k` positionally
(one new id per newly seen URL), its keys are the distinct URLs in strict
first-seen order over the whole ingestion sequence, and the mapping is
injective (no two URLs share a short id). -/
theorem urlIndex_contiguous_first_seen_injective (evss : List (List SessionEvent)) :
    idsOf (runCallbacks evss).url_to_short_id =
        idRun (runCallbacks evss).url_to_short_id.length ∧
      keysOf (runCallbacks evss).url_to_short_id = dedupFirst (allUrls evss) ∧
      ∀ u1 u2 sid,
        dlookup u1 (runCallbacks evss).url_to_short_id = some sid →
        dlookup u2 (runCallbacks evss).url_to_short_id = some sid → u1 = u2 := by
  obtain ⟨hids, _⟩ := runCallbacks_good evss
  refine ⟨hids, runCallbacks_keys evss, ?_⟩
  intro u1 u2 sid h1 h2
  have hnodup : ((runCallbacks evss).url_to_short_id.map Prod.snd).Nodup := by
    have : idsOf (runCallbacks evss).url_to_short_id =
        (runCallbacks evss).url_to_short_id.map Prod.snd := rfl
    rw [← this, hids]
    exact idRun_nodup _
  have e1 := dlookup_mem h1
  have e2 := dlookup_mem h2
  have := List.inj_on_of_nodup_map hnodup e1 e2 rfl
  exact congrArg Prod.fst this

/-! ### The escalation checker (C9) and the loop (C5) -/

/-- C9: the escalation checker signals escalate exactly when an evaluation
result exists in shared state and its grade equals `"pass"`; with no result, or
any other grade (such as `"fail"`), it signals continue.  The checker is a pure
two-valued predicate: it reads `research_evaluation` and writes nothing. -/
theorem escalation_iff_pass (r : Option Feedback) :
    escalationCheck r = true ↔ ∃ f, r = some f ∧ f.grade = "pass" := by
  rcases r with _ | f
  · simp [escalationCheck]
  · simp [escalationCheck]

theorem loopTraceAux_no_pass (g : Nat → Feedback) :
    ∀ (n i : Nat), (∀ j, (g j).grade ≠ "pass") →
      loopTraceAux g n i =
        List.replicate n [StageTag.evaluator, StageTag.checker, StageTag.refiner] := by
  intro n
  induction n with
  | zero => intro i _; rfl
  | succ n ih =>
    intro i h
    unfold loopTraceAux
    have hesc : escalationCheck (some (g i)) = false := by
      simp [escalationCheck, h i]
    rw [hesc]
    simp only [Bool.false_eq_true, if_false, List.replicate_succ]
    rw [ih (i + 1) h]

theorem loopTraceAux_first_pass (g : Nat → Feedback) :
    ∀ (k n i : Nat), k < n → (∀ j, j < k → (g (i + j)).grade ≠ "pass") →
      (g (i + k)).grade = "pass" →
      loopTraceAux g n i =
        List.replicate k [StageTag.evaluator, StageTag.checker, StageTag.refiner] ++
          [[StageTag.evaluator, StageTag.checker]] := by
  intro k
  induction k with
  | zero =>
    intro n i hn _ hpass
    rcases n with _ | n
    · omega
    unfold loopTraceAux
    have hesc : escalationCheck (some (g i)) = true := by
      simp only [Nat.add_zero] at hpass
      simp [escalationCheck, hpass]
    rw [hesc]
    simp
  | succ k ih =>
    intro n i hn hfail hpass
    rcases n with _ | n
    · omega
    unfold loopTraceAux
    have hesc : escalationCheck (some (g i)) = false := by
      have := hfail 0 (by omega)
      simp only [Nat.add_zero] at this
      simp [escalationCheck, this]
    rw [hesc]
    simp only [Bool.false_eq_true, if_false, List.replicate_succ, List.cons_append]
    have h1 : ∀ j, j < k → (g (i + 1 + j)).grade ≠ "pass" := by
      intro j hj
      have := hfail (j + 1) (by omega)
      rwa [show i + (j + 1) = i + 1 + j by omega] at this
    have h2 : (g (i + 1 + k)).grade = "pass" := by
      rwa [show i + 1 + k = i + (k + 1) by omega]
    rw [ih n (i + 1) (by omega) h1 h2]

/-- C5: the bounded retry loop with budget `N` and sub-stages
{evaluator, checker, refiner} in that order: if the evaluator never grades
`"pass"`, the loop runs exactly `N` full iterations and stops by exhaustion
(no failure — the trace is total); if the evaluator first grades `"pass"` at
iteration index `k < N` (the `(k+1)`-st iteration), the loop stops right after
that iteration's checker escalates, skipping that iteration's refiner and never
starting another iteration. -/
theorem loop_termination (g : Nat → Feedback) (N : Nat) :
    ((∀ j, (g j).grade ≠ "pass") →
      loopTrace g N =
        List.replicate N [StageTag.evaluator, StageTag.checker, StageTag.refiner]) ∧
    (∀ k, k < N → (∀ j, j < k → (g j).grade ≠ "pass") → (g k).grade = "pass" →
      loopTrace g N =
        List.replicate k [StageTag.evaluator, StageTag.checker, StageTag.refiner] ++
          [[StageTag.evaluator, StageTag.checker]]) := by
  constructor
  · intro h
    exact loopTraceAux_no_pass g N 0 h
  · intro k hk hfail hpass
    refine loopTraceAux_first_pass g k N 0 hk ?_ ?_
    · intro j hj
      simpa using hfail j hj
    · simpa using hpass

/-- Witness for C5: with `N = 3` and an evaluator that never passes, the loop
runs three full iterations; with an evaluator that passes on the second
iteration (index 1), the loop runs one full iteration and then stops at the
checker of the second. -/
theorem loop_termination_witness :
    (loopTrace (fun _ => ⟨"fail", "c", none⟩) 3 =
        List.replicate 3 [StageTag.evaluator, StageTag.checker, StageTag.refiner]) ∧
      (loopTrace (fun i => if i = 1 then ⟨"pass", "c", none⟩ else ⟨"fail", "c", none⟩) 3 =
        List.replicate 1 [StageTag.evaluator, StageTag.checker, StageTag.refiner] ++
          [[StageTag.evaluator, StageTag.checker]]) := by
  constructor
  · exact (loop_termination (fun _ => ⟨"fail", "c", none⟩) 3).1 (fun j => by decide)
  · exact (loop_termination
        (fun i => if i = 1 then ⟨"pass", "c", none⟩ else ⟨"fail", "c", none⟩) 3).2
      1 (by decide)
      (fun j hj => by
        have hj0 : j = 0 := by omega
        subst hj0
        decide)
      (by decide)

/-! ### Per-support claim bookkeeping (C6, C10) -/

theorem claimsOf_appendClaim_self {srcs : List (String × SourceRec)} {sid : String}
    (c : ClaimRec) (h : (dlookup sid srcs).isSome) :
    claimsOf (appendClaim srcs sid c) sid = claimsOf srcs sid ++ [c] := by
  obtain ⟨src, hsrc⟩ := Option.isSome_iff_exists.mp h
  unfold appendClaim
  rw [hsrc]
  unfold claimsOf
  rw [dlookup_dset_self, hsrc]
  rfl

theorem claimsOf_appendClaim_ne {srcs : List (String × SourceRec)} {s sid : String}
    (c : ClaimRec) (h : sid ≠ s) :
    claimsOf (appendClaim srcs s c) sid = claimsOf srcs sid := by
  unfold appendClaim
  rcases hs : dlookup s srcs with _ | src
  · rfl
  · unfold claimsOf
    rw [dlookup_dset_of_ne _ _ h]

theorem appendClaim_isSome (srcs : List (String × SourceRec)) (s sid : String) (c : ClaimRec) :
    (dlookup sid (appendClaim srcs s c)).isSome = (dlookup sid srcs).isSome := by
  by_cases hmem : sid ∈ keysOf srcs
  · have h1 : sid ∈ keysOf (appendClaim srcs s c) := by rw [appendClaim_keys]; exact hmem
    rw [(dlookup_isSome_iff_mem.mpr h1 : _), (dlookup_isSome_iff_mem.mpr hmem : _)]
  · have h1 : sid ∉ keysOf (appendClaim srcs s c) := by rw [appendClaim_keys]; exact hmem
    rw [dlookup_eq_none_iff.mpr h1, dlookup_eq_none_iff.mpr hmem]

theorem dite_conf_eq_get? (cs : List ℚ) (i : Nat) :
    (if h : i < cs.length then cs.get ⟨i, h⟩ else (1/2 : ℚ)) = (cs.get? i).getD (1/2) := by
  by_cases h : i < cs.length
  · simp [h, List.get?_eq_get h]
  · have hle : cs.length ≤ i := Nat.le_of_not_lt h
    rw [dif_neg h, List.get?_eq_none.mpr hle]
    rfl

/-- The claims a single support record contributes to a given short id, as a
positional description: position `i` of the support's index list contributes
exactly when its chunk index is mapped to `sid` by the event-local map, with
segment text and the positionally-aligned confidence (defaulting to `1/2`,
i.e. `0.5`, when the score list is too short or absent). -/
def supportClaims (ci : List (Int × String)) (sp : GroundingSupport) (sid : String) :
    List ClaimRec :=
  ((sp.grounding_chunk_indices.getD []).enum).filterMap (fun p =>
    match dlookup p.2 ci with
    | some s =>
      if s = sid then
        some ⟨segText sp, ((sp.confidence_scores.getD []).get? p.1).getD (1/2)⟩
      else none
    | none => none)

theorem supportClaimFold_claimsOf (cs : List ℚ) (ts : String) (ci : List (Int × String))
    (sid : String) :
    ∀ (ps : List (Nat × Int)) (srcs : List (String × SourceRec)),
      (dlookup sid srcs).isSome →
      claimsOf (ps.foldl (supportClaimStep cs ts ci) srcs) sid =
        claimsOf srcs sid ++
          ps.filterMap (fun p =>
            match dlookup p.2 ci with
            | some s => if s = sid then some ⟨ts, (cs.get? p.1).getD (1/2)⟩ else none
            | none => none) := by
  intro ps
  induction ps with
  | nil => intro srcs _; simp
  | cons p ps ih =>
    intro srcs hsome
    simp only [List.foldl_cons, List.filterMap_cons]
    rcases hci : dlookup p.2 ci with _ | s
    · have hstep : supportClaimStep cs ts ci srcs p = srcs := by
        unfold supportClaimStep
        rw [hci]
      rw [hstep, ih srcs hsome]
    · have hstep : supportClaimStep cs ts ci srcs p =
          appendClaim srcs s ⟨ts, (cs.get? p.1).getD (1/2)⟩ := by
        unfold supportClaimStep
        rw [hci]
        dsimp only
        rw [dite_conf_eq_get?]
      rw [hstep]
      by_cases hssid : s = sid
      · rw [hssid]
        have h1 : (dlookup sid (appendClaim srcs sid ⟨ts, (cs.get? p.1).getD (1/2)⟩)).isSome := by
          rw [appendClaim_isSome]
          exact hsome
        rw [ih _ h1, claimsOf_appendClaim_self _ hsome]
        simp
      · have h1 : (dlookup sid (appendClaim srcs s ⟨ts, (cs.get? p.1).getD (1/2)⟩)).isSome := by
          rw [appendClaim_isSome]
          exact hsome
        rw [ih _ h1, claimsOf_appendClaim_ne _ (fun hx => hssid hx.symm)]
        simp [hssid]

theorem supportClaimStep_absent (cs : List ℚ) (ts : String) (ci : List (Int × String))
    (srcs : List (String × SourceRec)) (p : Nat × Int) (h : dlookup p.2 ci = none) :
    supportClaimStep cs ts ci srcs p = srcs := by
  unfold supportClaimStep
  rw [h]

theorem supportClaimFold_filter (cs : List ℚ) (ts : String) (ci : List (Int × String)) :
    ∀ (ps : List (Nat × Int)) (srcs : List (String × SourceRec)),
      ps.foldl (supportClaimStep cs ts ci) srcs =
        (ps.filter (fun p => (dlookup p.2 ci).isSome)).foldl
          (supportClaimStep cs ts ci) srcs := by
  intro ps
  induction ps with
  | nil => intro srcs; rfl
  | cons p ps ih =>
    intro srcs
    simp only [List.foldl_cons, List.filter_cons]
    rcases hci : dlookup p.2 ci with _ | s
    · simp only [Option.isSome_none, Bool.false_eq_true, if_false]
      rw [supportClaimStep_absent _ _ _ _ _ hci, ih]
    · simp only [Option.isSome_some, if_true, List.foldl_cons]
      exact ih _

theorem enumFrom_filter_absent (ci : List (Int × String)) :
    ∀ (l : List Int) (n : Nat), (∀ ix ∈ l, dlookup ix ci = none) →
      (List.enumFrom n l).filter (fun p => (dlookup p.2 ci).isSome) = [] := by
  intro l
  induction l with
  | nil => intro n _; rfl
  | cons ix l ih =>
    intro n h
    simp only [List.enumFrom, List.filter_cons]
    have h0 : dlookup ix ci = none := h ix (List.mem_cons_self _ _)
    simp only [h0, Option.isSome_none, Bool.false_eq_true, if_false]
    exact ih (n + 1) (fun ix' hix' => h ix' (List.mem_cons_of_mem _ hix'))

/-- C10: a support record referencing a chunk index that is absent from the
event-local `chunks_info` map appends no claim for that index and causes no
failure: the whole support fold equals the fold over only the present-indexed
positions (with their original positions, so the score alignment of the other
indices is untouched), and a support all of whose indices are absent leaves the
sources dictionary unchanged. -/
theorem support_absent_index_skipped (ci : List (Int × String))
    (srcs : List (String × SourceRec)) (sp : GroundingSupport) :
    supportStep ci srcs sp =
        (((sp.grounding_chunk_indices.getD []).enum).filter
            (fun p => (dlookup p.2 ci).isSome)).foldl
          (supportClaimStep (sp.confidence_scores.getD []) (segText sp) ci) srcs ∧
      ((∀ ix ∈ sp.grounding_chunk_indices.getD [], dlookup ix ci = none) →
        supportStep ci srcs sp = srcs) := by
  constructor
  · unfold supportStep
    exact supportClaimFold_filter _ _ _ _ _
  · intro h
    unfold supportStep
    rw [supportClaimFold_filter]
    have : ((sp.grounding_chunk_indices.getD []).enum).filter
        (fun p => (dlookup p.2 ci).isSome) = [] :=
      enumFrom_filter_absent ci _ 0 h
    rw [this]
    rfl

/-- Witness for C10: a support referencing only the absent indices `[3, -1]`
leaves the sources dictionary unchanged. -/
theorem support_absent_index_skipped_witness :
    supportStep [(0, "src-1")]
        [("src-1", ⟨"src-1", some "A", "https://a.com", some "a.com", []⟩)]
        ⟨some ⟨"t"⟩, some [1], some [3, -1]⟩ =
      [("src-1", ⟨"src-1", some "A", "https://a.com", some "a.com", []⟩)] :=
  (support_absent_index_skipped [(0, "src-1")]
    [("src-1", ⟨"src-1", some "A", "https://a.com", some "a.com", []⟩)]
    ⟨some ⟨"t"⟩, some [1], some [3, -1]⟩).2 (by decide)

/-! ### Monotone growth and duplicate ingestion (C8) -/

/-- The URL index only grows by appending (no entry removed or reassigned). -/
def UrlExtends (a b : List (String × String)) : Prop := ∃ l, b = a ++ l

/-- The sources dictionary only grows: its key list is extended at the end and
every existing source keeps all its fields, with claims only appended. -/
def SrcExtends (a b : List (String × SourceRec)) : Prop :=
  (∃ l, keysOf b = keysOf a ++ l) ∧
  ∀ sid src, dlookup sid a = some src → ∃ d,
    dlookup sid b = some { src with supported_claims := src.supported_claims ++ d }

/-- Monotone growth of the whole registry state. -/
def Extends (s t : RegState) : Prop :=
  UrlExtends s.url_to_short_id t.url_to_short_id ∧ SrcExtends s.sources t.sources

theorem urlExtends_refl (a : List (String × String)) : UrlExtends a a := ⟨[], by simp⟩

theorem urlExtends_trans {a b c : List (String × String)} (h1 : UrlExtends a b)
    (h2 : UrlExtends b c) : UrlExtends a c := by
  obtain ⟨l1, rfl⟩ := h1
  obtain ⟨l2, rfl⟩ := h2
  exact ⟨l1 ++ l2, by simp⟩

theorem srcExtends_refl (a : List (String × SourceRec)) : SrcExtends a a := by
  refine ⟨⟨[], by simp⟩, ?_⟩
  intro sid src h
  exact ⟨[], by simpa using h⟩

theorem srcExtends_trans {a b c : List (String × SourceRec)} (h1 : SrcExtends a b)
    (h2 : SrcExtends b c) : SrcExtends a c := by
  obtain ⟨⟨l1, hk1⟩, hc1⟩ := h1
  obtain ⟨⟨l2, hk2⟩, hc2⟩ := h2
  refine ⟨⟨l1 ++ l2, by rw [hk2, hk1, List.append_assoc]⟩, ?_⟩
  intro sid src h
  obtain ⟨d1, hd1⟩ := hc1 sid src h
  obtain ⟨d2, hd2⟩ := hc2 sid _ hd1
  exact ⟨d1 ++ d2, by simpa [List.append_assoc] using hd2⟩

theorem extends_refl (s : RegState) : Extends s s :=
  ⟨urlExtends_refl _, srcExtends_refl _⟩

theorem extends_trans {s t u : RegState} (h1 : Extends s t) (h2 : Extends t u) :
    Extends s u :=
  ⟨urlExtends_trans h1.1 h2.1, srcExtends_trans h1.2 h2.2⟩

theorem srcExtends_append_fresh {srcs : List (String × SourceRec)} {sid : String}
    (rec : SourceRec) : SrcExtends srcs (srcs ++ [(sid, rec)]) := by
  refine ⟨⟨[sid], by simp [keysOf]⟩, ?_⟩
  intro s src hs
  exact ⟨[], by simpa using dlookup_append_of_isSome hs⟩

theorem srcExtends_appendClaim (srcs : List (String × SourceRec)) (s : String) (c : ClaimRec) :
    SrcExtends srcs (appendClaim srcs s c) := by
  refine ⟨⟨[], by simp [appendClaim_keys]⟩, ?_⟩
  intro sid src hsid
  unfold appendClaim
  rcases hs : dlookup s srcs with _ | src'
  · exact ⟨[], by simpa using hsid⟩
  · by_cases heq : sid = s
    · subst heq
      rw [hsid] at hs
      cases hs
      exact ⟨[c], by rw [dlookup_dset_self]⟩
    · exact ⟨[], by rw [dlookup_dset_of_ne _ _ heq]; simpa using hsid⟩

theorem chunkStep_extends {acc : ChunkAcc} (h : GoodAcc acc) (p : Nat × GroundingChunk) :
    UrlExtends acc.url_to_short_id (chunkStep acc p).url_to_short_id ∧
      SrcExtends acc.sources (chunkStep acc p).sources := by
  obtain ⟨hc, hids, hkeys⟩ := h
  unfold chunkStep
  rcases p.2.web with _ | w
  · exact ⟨urlExtends_refl _, srcExtends_refl _⟩
  rcases hurl : dlookup w.uri acc.url_to_short_id with _ | sid
  · have hfresh : mkId acc.id_counter ∉ keysOf acc.sources := by
      rw [hkeys, hids, hc]
      exact not_mem_idRun_self _
    have hsrc : dlookup (mkId acc.id_counter) acc.sources = none :=
      dlookup_eq_none_iff.mpr hfresh
    simp only [hurl, dset_of_absent hurl, dset_of_absent hsrc]
    exact ⟨⟨[(w.uri, mkId acc.id_counter)], rfl⟩, srcExtends_append_fresh _⟩
  · simp only [hurl]
    exact ⟨urlExtends_refl _, srcExtends_refl _⟩

theorem chunkFold_extends :
    ∀ (ps : List (Nat × GroundingChunk)) (acc : ChunkAcc), GoodAcc acc →
      UrlExtends acc.url_to_short_id ((ps.foldl chunkStep acc).url_to_short_id) ∧
        SrcExtends acc.sources ((ps.foldl chunkStep acc).sources) := by
  intro ps
  induction ps with
  | nil => intro acc _; exact ⟨urlExtends_refl _, srcExtends_refl _⟩
  | cons p ps ih =>
    intro acc hacc
    simp only [List.foldl_cons]
    obtain ⟨h1, h2⟩ := chunkStep_extends hacc p
    obtain ⟨h1', h2'⟩ := ih _ (chunkStep_good hacc p)
    exact ⟨urlExtends_trans h1 h1', srcExtends_trans h2 h2'⟩

theorem supportClaimFold_extends (cs : List ℚ) (ts : String) (ci : List (Int × String)) :
    ∀ (ps : List (Nat × Int)) (srcs : List (String × SourceRec)),
      SrcExtends srcs (ps.foldl (supportClaimStep cs ts ci) srcs) := by
  intro ps
  induction ps with
  | nil => intro srcs; exact srcExtends_refl _
  | cons p ps ih =>
    intro srcs
    simp only [List.foldl_cons]
    refine srcExtends_trans ?_ (ih _)
    unfold supportClaimStep
    rcases dlookup p.2 ci with _ | s
    · exact srcExtends_refl _
    · exact srcExtends_appendClaim _ _ _

theorem supportStep_extends (ci : List (Int × String)) (srcs : List (String × SourceRec))
    (sp : GroundingSupport) : SrcExtends srcs (supportStep ci srcs sp) := by
  unfold supportStep
  exact supportClaimFold_extends _ _ _ _ _

theorem supportFoldList_extends (ci : List (Int × String)) :
    ∀ (sps : List GroundingSupport) (srcs : List (String × SourceRec)),
      SrcExtends srcs (sps.foldl (supportStep ci) srcs) := by
  intro sps
  induction sps with
  | nil => intro srcs; exact srcExtends_refl _
  | cons sp sps ih =>
    intro srcs
    simp only [List.foldl_cons]
    exact srcExtends_trans (supportStep_extends _ _ _) (ih _)

theorem processEvent_extends {st : RegState} {c : Nat} (e : SessionEvent)
    (hc : c = st.url_to_short_id.length + 1) (h : GoodState st) :
    Extends st (processEvent (st, c) e).1 := by
  obtain ⟨hids, hkeys⟩ := h
  unfold processEvent
  rcases e.grounding_metadata with _ | md
  · exact extends_refl _
  dsimp only
  rcases md.grounding_chunks with _ | (_ | ⟨ch, chunks⟩)
  · exact extends_refl _
  · exact extends_refl _
  dsimp only
  obtain ⟨hurl, hsrc⟩ := chunkFold_extends ((ch :: chunks).enum)
    ⟨st.url_to_short_id, st.sources, c, []⟩ ⟨hc, hids, hkeys⟩
  rcases md.grounding_supports with _ | sps
  · exact ⟨hurl, hsrc⟩
  · dsimp only
    exact ⟨hurl, srcExtends_trans hsrc (supportFoldList_extends _ _ _)⟩

theorem collect_extends (st : RegState) (evs : List SessionEvent) (h : GoodState st) :
    Extends st (collect_research_sources st evs) := by
  unfold collect_research_sources
  have main : ∀ (evs : List SessionEvent) (st : RegState) (c : Nat),
      c = st.url_to_short_id.length + 1 → GoodState st →
      Extends st (evs.foldl processEvent (st, c)).1 := by
    intro evs
    induction evs with
    | nil => intro st c _ _; exact extends_refl _
    | cons e evs ih =>
      intro st c hc hgood
      simp only [List.foldl_cons]
      obtain ⟨hgood', hc'⟩ := processEvent_good e hc hgood
      rcases hpe : processEvent (st, c) e with ⟨st', c'⟩
      rw [hpe] at hgood' hc'
      have h1 : Extends st st' := by
        have := processEvent_extends e hc hgood
        rwa [hpe] at this
      exact extends_trans h1 (ih st' c' hc' hgood')
  exact main evs st _ rfl h

/-- The event-local `chunks_info` map, described against a fixed URL index `U`:
each web chunk contributes the binding `idx ↦ U[url]` (when present in `U`). -/
def ciOf (U : List (String × String)) (ci0 : List (Int × String))
    (ps : List (Nat × GroundingChunk)) : List (Int × String) :=
  ps.foldl
    (fun ci p =>
      match p.2.web with
      | none => ci
      | some w =>
        match dlookup w.uri U with
        | some sid => dset ci (Int.ofNat p.1) sid
        | none => ci)
    ci0

theorem chunkFold_urlExtends :
    ∀ (ps : List (Nat × GroundingChunk)) (acc : ChunkAcc),
      UrlExtends acc.url_to_short_id ((ps.foldl chunkStep acc).url_to_short_id) := by
  intro ps
  induction ps with
  | nil => intro acc; exact urlExtends_refl _
  | cons p ps ih =>
    intro acc
    simp only [List.foldl_cons]
    refine urlExtends_trans ?_ (ih _)
    unfold chunkStep
    rcases p.2.web with _ | w
    · exact urlExtends_refl _
    rcases hurl : dlookup w.uri acc.url_to_short_id with _ | sid
    · simp only [hurl, dset_of_absent hurl]
      exact ⟨[(w.uri, mkId acc.id_counter)], rfl⟩
    · simp only [hurl]
      exact urlExtends_refl _

theorem dlookup_of_urlExtends {a b : List (String × String)} {u sid : String}
    (hext : UrlExtends a b) (h : dlookup u a = some sid) : dlookup u b = some sid := by
  obtain ⟨l, rfl⟩ := hext
  exact dlookup_append_of_isSome h

/-- Pass-1 `chunks_info` characterization: the map built while the index grows
equals the map built against the final index, because an id, once assigned, is
never changed by later appends. -/
theorem chunkFold_chunksInfo :
    ∀ (ps : List (Nat × GroundingChunk)) (acc : ChunkAcc),
      (ps.foldl chunkStep acc).chunks_info =
        ciOf ((ps.foldl chunkStep acc).url_to_short_id) acc.chunks_info ps := by
  intro ps
  induction ps with
  | nil => intro acc; rfl
  | cons p ps ih =>
    intro acc
    simp only [List.foldl_cons, ciOf, List.foldl_cons]
    have hstep : ∀ acc' : ChunkAcc, acc' = chunkStep acc p →
        (ps.foldl chunkStep acc').chunks_info =
          ciOf ((ps.foldl chunkStep acc').url_to_short_id) acc'.chunks_info ps :=
      fun acc' h => h ▸ ih acc'
    rcases hw : p.2.web with _ | w
    · have : chunkStep acc p = acc := by
        unfold chunkStep
        rw [hw]
      rw [this]
      exact ih acc
    · rcases hurl : dlookup w.uri acc.url_to_short_id with _ | sid
      · -- fresh URL: the inserted binding survives into the final index
        have hacc' : chunkStep acc p =
            { url_to_short_id := acc.url_to_short_id ++ [(w.uri, mkId acc.id_counter)]
              sources := dset acc.sources (mkId acc.id_counter)
                { short_id := mkId acc.id_counter,
                  title := some (if w.title ≠ w.domain then w.title else w.domain),
                  url := w.uri, domain := some w.domain, supported_claims := [] }
              id_counter := acc.id_counter + 1
              chunks_info := dset acc.chunks_info (Int.ofNat p.1) (mkId acc.id_counter) } := by
          unfold chunkStep
          rw [hw]
          simp only [hurl, dset_of_absent hurl]
        have hlook : dlookup w.uri ((ps.foldl chunkStep (chunkStep acc p)).url_to_short_id) =
            some (mkId acc.id_counter) := by
          refine dlookup_of_urlExtends (chunkFold_urlExtends ps _) ?_
          rw [hacc']
          rw [dlookup_append_of_not_mem (dlookup_eq_none_iff.mp hurl)]
          simp [dlookup]
        rw [ih (chunkStep acc p)]
        dsimp only
        rw [hlook, hacc']
        rfl
      · have hacc' : chunkStep acc p =
            { acc with chunks_info := dset acc.chunks_info (Int.ofNat p.1) sid } := by
          unfold chunkStep
          rw [hw]
          simp only [hurl]
        have hlook : dlookup w.uri ((ps.foldl chunkStep (chunkStep acc p)).url_to_short_id) =
            some sid := by
          refine dlookup_of_urlExtends (chunkFold_urlExtends ps _) ?_
          rw [hacc']
          exact hurl
        rw [ih (chunkStep acc p)]
        dsimp only
        rw [hlook, hacc']
        rfl

/-- Every web chunk's URL is present in the index after the chunk loop. -/
theorem chunkFold_urls_present :
    ∀ (ps : List (Nat × GroundingChunk)) (acc : ChunkAcc) (p : Nat × GroundingChunk),
      p ∈ ps → ∀ w, p.2.web = some w →
      (dlookup w.uri ((ps.foldl chunkStep acc).url_to_short_id)).isSome := by
  intro ps
  induction ps with
  | nil => intro acc p hp; simp at hp
  | cons q ps ih =>
    intro acc p hp w hw
    rcases List.mem_cons.mp hp with hpq | hp'
    · subst hpq
      simp only [List.foldl_cons]
      have hstep : (dlookup w.uri ((chunkStep acc p).url_to_short_id)).isSome := by
        unfold chunkStep
        rw [hw]
        rcases hurl : dlookup w.uri acc.url_to_short_id with _ | sid
        · simp only [hurl, dset_of_absent hurl]
          rw [dlookup_append_of_not_mem (dlookup_eq_none_iff.mp hurl)]
          simp [dlookup]
        · simp only [hurl]
          rfl
      obtain ⟨sid, hsid⟩ := Option.isSome_iff_exists.mp hstep
      rw [dlookup_of_urlExtends (chunkFold_urlExtends ps _) hsid]
      rfl
    · simp only [List.foldl_cons]
      exact ih _ p hp' w hw

/-- Pass-2 staticness: when every web chunk's URL is already indexed, the chunk
loop changes nothing except (re)computing `chunks_info`, and it computes it
against the unchanged index. -/
theorem chunkFold_static :
    ∀ (ps : List (Nat × GroundingChunk)) (acc : ChunkAcc),
      (∀ p ∈ ps, ∀ w, p.2.web = some w →
        (dlookup w.uri acc.url_to_short_id).isSome) →
      ps.foldl chunkStep acc =
        { acc with chunks_info := ciOf acc.url_to_short_id acc.chunks_info ps } := by
  intro ps
  induction ps with
  | nil =>
    intro acc _
    rcases acc with ⟨a, b, c, d⟩
    rfl
  | cons p ps ih =>
    intro acc h
    simp only [List.foldl_cons, ciOf, List.foldl_cons]
    rcases hw : p.2.web with _ | w
    · have hstep : chunkStep acc p = acc := by
        unfold chunkStep
        rw [hw]
      rw [hstep]
      exact ih acc (fun q hq => h q (List.mem_cons_of_mem _ hq))
    · obtain ⟨sid, hsid⟩ := Option.isSome_iff_exists.mp (h p (List.mem_cons_self _ _) w hw)
      have hstep : chunkStep acc p =
          { acc with chunks_info := dset acc.chunks_info (Int.ofNat p.1) sid } := by
        unfold chunkStep
        rw [hw]
        simp only [hsid]
      rw [hstep]
      dsimp only
      rw [hsid]
      exact ih _ (fun q hq w' hw' => h q (List.mem_cons_of_mem _ hq) w' hw')

theorem claimsOf_of_absent {srcs : List (String × SourceRec)} {sid : String}
    (h : dlookup sid srcs = none) : claimsOf srcs sid = [] := by
  simp [claimsOf, h]

theorem chunkStep_claimsOf {acc : ChunkAcc} (h : GoodAcc acc) (p : Nat × GroundingChunk)
    (sid : String) : claimsOf (chunkStep acc p).sources sid = claimsOf acc.sources sid := by
  obtain ⟨hc, hids, hkeys⟩ := h
  unfold chunkStep
  rcases p.2.web with _ | w
  · rfl
  rcases hurl : dlookup w.uri acc.url_to_short_id with _ | s
  · have hfresh : mkId acc.id_counter ∉ keysOf acc.sources := by
      rw [hkeys, hids, hc]
      exact not_mem_idRun_self _
    have hsrc : dlookup (mkId acc.id_counter) acc.sources = none :=
      dlookup_eq_none_iff.mpr hfresh
    simp only [hurl, dset_of_absent hsrc]
    by_cases hsid : sid = mkId acc.id_counter
    · subst hsid
      rw [claimsOf_of_absent hsrc]
      unfold claimsOf
      rw [dlookup_append_of_not_mem hfresh]
      simp [dlookup]
    · have hne : mkId acc.id_counter ≠ sid := fun hh => hsid hh.symm
      unfold claimsOf
      rcases hmem : dlookup sid acc.sources with _ | src
      · rw [dlookup_append_of_not_mem (dlookup_eq_none_iff.mp hmem)]
        simp [dlookup, hne]
      · rw [dlookup_append_of_isSome hmem]
  · simp only [hurl]

theorem chunkFold_claimsOf :
    ∀ (ps : List (Nat × GroundingChunk)) (acc : ChunkAcc), GoodAcc acc → ∀ sid,
      claimsOf ((ps.foldl chunkStep acc).sources) sid = claimsOf acc.sources sid := by
  intro ps
  induction ps with
  | nil => intro acc _ sid; rfl
  | cons p ps ih =>
    intro acc hacc sid
    simp only [List.foldl_cons]
    rw [ih _ (chunkStep_good hacc p) sid, chunkStep_claimsOf hacc p sid]

/-- Shared helper behind C6: the claims a support appends for a given short id,
as a positional description. -/
theorem claimsOf_supportStep (ci : List (Int × String)) (srcs : List (String × SourceRec))
    (sp : GroundingSupport) (sid : String) (h : (dlookup sid srcs).isSome) :
    claimsOf (supportStep ci srcs sp) sid = claimsOf srcs sid ++ supportClaims ci sp sid := by
  unfold supportStep supportClaims
  exact supportClaimFold_claimsOf _ _ _ _ _ _ h

theorem supportStep_isSome (ci : List (Int × String)) (srcs : List (String × SourceRec))
    (sp : GroundingSupport) (sid : String) :
    (dlookup sid (supportStep ci srcs sp)).isSome = (dlookup sid srcs).isSome := by
  by_cases hmem : sid ∈ keysOf srcs
  · have h1 : sid ∈ keysOf (supportStep ci srcs sp) := by rw [supportStep_keys]; exact hmem
    rw [(dlookup_isSome_iff_mem.mpr h1 : _), (dlookup_isSome_iff_mem.mpr hmem : _)]
  · have h1 : sid ∉ keysOf (supportStep ci srcs sp) := by rw [supportStep_keys]; exact hmem
    rw [dlookup_eq_none_iff.mpr h1, dlookup_eq_none_iff.mpr hmem]

/-- The claims a list of supports appends for a given short id, in support
order. -/
def supportsClaims (ci : List (Int × String)) (sps : List GroundingSupport)
    (sid : String) : List ClaimRec :=
  sps.foldl (fun a sp => a ++ supportClaims ci sp sid) []

theorem foldl_append_acc {α β : Type} (g : α → List β) :
    ∀ (l : List α) (a : List β),
      l.foldl (fun acc x => acc ++ g x) a = a ++ l.foldl (fun acc x => acc ++ g x) [] := by
  intro l
  induction l with
  | nil => intro a; simp
  | cons x xs ih =>
    intro a
    simp only [List.foldl_cons, List.nil_append]
    rw [ih, ih (g x), List.append_assoc]

theorem supportsClaims_cons (ci : List (Int × String)) (sp : GroundingSupport)
    (sps : List GroundingSupport) (sid : String) :
    supportsClaims ci (sp :: sps) sid =
      supportClaims ci sp sid ++ supportsClaims ci sps sid := by
  unfold supportsClaims
  simp only [List.foldl_cons, List.nil_append]
  exact foldl_append_acc _ _ _

theorem claimsOf_supportFoldList (ci : List (Int × String)) :
    ∀ (sps : List GroundingSupport) (srcs : List (String × SourceRec)) (sid : String),
      claimsOf (sps.foldl (supportStep ci) srcs) sid =
        claimsOf srcs sid ++
          (if (dlookup sid srcs).isSome then supportsClaims ci sps sid else []) := by
  intro sps
  induction sps with
  | nil =>
    intro srcs sid
    simp [supportsClaims]
  | cons sp sps ih =>
    intro srcs sid
    simp only [List.foldl_cons]
    rw [ih, supportStep_isSome]
    rcases hsome : (dlookup sid srcs).isSome with _ | _
    · -- absent: the id never appears, claims stay empty
      have hnone : dlookup sid srcs = none := by
        rcases hd : dlookup sid srcs with _ | v
        · rfl
        · rw [hd] at hsome; cases hsome
      have hnone' : dlookup sid (supportStep ci srcs sp) = none := by
        apply dlookup_eq_none_iff.mpr
        rw [supportStep_keys]
        exact dlookup_eq_none_iff.mp hnone
      simp [claimsOf_of_absent hnone, claimsOf_of_absent hnone']
    · rw [claimsOf_supportStep ci srcs sp sid hsome]
      simp [supportsClaims_cons]

theorem supportFoldList_isSome (ci : List (Int × String)) (sps : List GroundingSupport)
    (srcs : List (String × SourceRec)) (sid : String) :
    (dlookup sid (sps.foldl (supportStep ci) srcs)).isSome = (dlookup sid srcs).isSome := by
  by_cases hmem : sid ∈ keysOf srcs
  · have h1 : sid ∈ keysOf (sps.foldl (supportStep ci) srcs) := by
      rw [supportFoldList_keys]; exact hmem
    rw [(dlookup_isSome_iff_mem.mpr h1 : _), (dlookup_isSome_iff_mem.mpr hmem : _)]
  · have h1 : sid ∉ keysOf (sps.foldl (supportStep ci) srcs) := by
      rw [supportFoldList_keys]; exact hmem
    rw [dlookup_eq_none_iff.mpr h1, dlookup_eq_none_iff.mpr hmem]

theorem processEvent_duplicate {st : RegState} (e : SessionEvent) (h : GoodState st) :
    (processEvent ((processEvent (st, st.url_to_short_id.length + 1) e).1,
        (processEvent (st, st.url_to_short_id.length + 1) e).1.url_to_short_id.length + 1)
        e).1.url_to_short_id =
      (processEvent (st, st.url_to_short_id.length + 1) e).1.url_to_short_id ∧
    keysOf (processEvent ((processEvent (st, st.url_to_short_id.length + 1) e).1,
        (processEvent (st, st.url_to_short_id.length + 1) e).1.url_to_short_id.length + 1)
        e).1.sources =
      keysOf (processEvent (st, st.url_to_short_id.length + 1) e).1.sources ∧
    ∀ sid, ∃ d,
      claimsOf (processEvent (st, st.url_to_short_id.length + 1) e).1.sources sid =
          claimsOf st.sources sid ++ d ∧
        claimsOf (processEvent ((processEvent (st, st.url_to_short_id.length + 1) e).1,
            (processEvent (st, st.url_to_short_id.length + 1) e).1.url_to_short_id.length + 1)
            e).1.sources sid =
          claimsOf (processEvent (st, st.url_to_short_id.length + 1) e).1.sources sid ++ d := by
  obtain ⟨hids, hkeys⟩ := h
  unfold processEvent
  rcases e.grounding_metadata with _ | md
  · exact ⟨rfl, rfl, fun sid => ⟨[], by simp, by simp⟩⟩
  dsimp only
  rcases md.grounding_chunks with _ | (_ | ⟨ch, chunks⟩)
  · exact ⟨rfl, rfl, fun sid => ⟨[], by simp, by simp⟩⟩
  · exact ⟨rfl, rfl, fun sid => ⟨[], by simp, by simp⟩⟩
  dsimp only
  -- pass 1
  have hgacc : GoodAcc ⟨st.url_to_short_id, st.sources, st.url_to_short_id.length + 1, []⟩ :=
    ⟨rfl, hids, hkeys⟩
  rcases hA : ((ch :: chunks).enum).foldl chunkStep
      ⟨st.url_to_short_id, st.sources, st.url_to_short_id.length + 1, []⟩ with ⟨U, S1, c1, ci1⟩
  have hclaimsA : ∀ sid, claimsOf S1 sid = claimsOf st.sources sid := by
    intro sid
    have := chunkFold_claimsOf ((ch :: chunks).enum)
      ⟨st.url_to_short_id, st.sources, st.url_to_short_id.length + 1, []⟩ hgacc sid
    rw [hA] at this
    exact this
  have hci1 : ci1 = ciOf U [] ((ch :: chunks).enum) := by
    have := chunkFold_chunksInfo ((ch :: chunks).enum)
      ⟨st.url_to_short_id, st.sources, st.url_to_short_id.length + 1, []⟩
    rw [hA] at this
    exact this
  have hpres : ∀ p ∈ (ch :: chunks).enum, ∀ w, p.2.web = some w →
      (dlookup w.uri U).isSome := by
    intro p hp w hw
    have := chunkFold_urls_present ((ch :: chunks).enum)
      ⟨st.url_to_short_id, st.sources, st.url_to_short_id.length + 1, []⟩ p hp w hw
    rw [hA] at this
    exact this
  -- the claim lists after the support phase of pass 1
  rcases md.grounding_supports with _ | sps
  all_goals dsimp only
  · -- no supports: pass 2's chunk loop is static, sources untouched
    have hstatic := chunkFold_static ((ch :: chunks).enum) ⟨U, S1, U.length + 1, []⟩ hpres
    rw [hstatic]
    exact ⟨rfl, rfl, fun sid => ⟨[], by simp [hclaimsA sid], by simp⟩⟩
  · -- supports present
    have hstatic := chunkFold_static ((ch :: chunks).enum) ⟨U, sps.foldl (supportStep ci1) S1,
      U.length + 1, []⟩ hpres
    rw [hstatic]
    dsimp only
    refine ⟨rfl, ?_, ?_⟩
    · rw [supportFoldList_keys]
    · intro sid
      refine ⟨if (dlookup sid S1).isSome then supportsClaims ci1 sps sid else [], ?_, ?_⟩
      · rw [claimsOf_supportFoldList, hclaimsA sid]
      · rw [claimsOf_supportFoldList, supportFoldList_isSome]
        have hciOf : ciOf U [] ((ch :: chunks).enum) = ci1 := hci1.symm
        rw [hciOf]

/-- C8: within a run (i.e. from any reachable registry state), every ingest
call only grows the URL index (entries appended, never removed or reassigned)
and the sources dictionary (keys appended; every existing source keeps its
fields and has claims only appended); and ingesting the same event a second
time leaves the URL index and the set of sources unchanged while appending a
second, identical batch of that event's claims to the corresponding sources —
ingestion is not idempotent on claim lists. -/
theorem ingest_monotone_and_duplicate :
    (∀ (st : RegState) (evs : List SessionEvent), GoodState st →
      Extends st (collect_research_sources st evs)) ∧
    (∀ (st : RegState) (e : SessionEvent), GoodState st →
      (collect_research_sources (collect_research_sources st [e]) [e]).url_to_short_id =
          (collect_research_sources st [e]).url_to_short_id ∧
        keysOf (collect_research_sources (collect_research_sources st [e]) [e]).sources =
          keysOf (collect_research_sources st [e]).sources ∧
        ∀ sid, ∃ d,
          claimsOf (collect_research_sources st [e]).sources sid =
              claimsOf st.sources sid ++ d ∧
            claimsOf
                (collect_research_sources (collect_research_sources st [e]) [e]).sources sid =
              claimsOf (collect_research_sources st [e]).sources sid ++ d) := by
  constructor
  · exact fun st evs h => collect_extends st evs h
  · exact fun st e h => processEvent_duplicate e h

/-- Witness for C8: from the empty state, ingesting one event twice keeps the
index at `src-1` and duplicates the single claim. -/
theorem ingest_monotone_and_duplicate_witness :
    (Extends ⟨[], []⟩ (collect_research_sources ⟨[], []⟩
        [⟨some ⟨some [⟨some ⟨"https://a.com", "A", "a.com"⟩⟩],
          some [⟨some ⟨"claim text"⟩, some [9/10], some [0]⟩]⟩⟩])) ∧
      ((collect_research_sources (collect_research_sources ⟨[], []⟩
            [⟨some ⟨some [⟨some ⟨"https://a.com", "A", "a.com"⟩⟩],
              some [⟨some ⟨"claim text"⟩, some [9/10], some [0]⟩]⟩⟩])
            [⟨some ⟨some [⟨some ⟨"https://a.com", "A", "a.com"⟩⟩],
              some [⟨some ⟨"claim text"⟩, some [9/10], some [0]⟩]⟩⟩]).url_to_short_id =
          (collect_research_sources ⟨[], []⟩
            [⟨some ⟨some [⟨some ⟨"https://a.com", "A", "a.com"⟩⟩],
              some [⟨some ⟨"claim text"⟩, some [9/10], some [0]⟩]⟩⟩]).url_to_short_id ∧
        keysOf (collect_research_sources (collect_research_sources ⟨[], []⟩
            [⟨some ⟨some [⟨some ⟨"https://a.com", "A", "a.com"⟩⟩],
              some [⟨some ⟨"claim text"⟩, some [9/10], some [0]⟩]⟩⟩])
            [⟨some ⟨some [⟨some ⟨"https://a.com", "A", "a.com"⟩⟩],
              some [⟨some ⟨"claim text"⟩, some [9/10], some [0]⟩]⟩⟩]).sources =
          keysOf (collect_research_sources ⟨[], []⟩
            [⟨some ⟨some [⟨some ⟨"https://a.com", "A", "a.com"⟩⟩],
              some [⟨some ⟨"claim text"⟩, some [9/10], some [0]⟩]⟩⟩]).sources ∧
        ∀ sid, ∃ d,
          claimsOf (collect_research_sources ⟨[], []⟩
              [⟨some ⟨some [⟨some ⟨"https://a.com", "A", "a.com"⟩⟩],
                some [⟨some ⟨"claim text"⟩, some [9/10], some [0]⟩]⟩⟩]).sources sid =
              claimsOf (⟨[], []⟩ : RegState).sources sid ++ d ∧
            claimsOf (collect_research_sources (collect_research_sources ⟨[], []⟩
                [⟨some ⟨some [⟨some ⟨"https://a.com", "A", "a.com"⟩⟩],
                  some [⟨some ⟨"claim text"⟩, some [9/10], some [0]⟩]⟩⟩])
                [⟨some ⟨some [⟨some ⟨"https://a.com", "A", "a.com"⟩⟩],
                  some [⟨some ⟨"claim text"⟩, some [9/10], some [0]⟩]⟩⟩]).sources sid =
              claimsOf (collect_research_sources ⟨[], []⟩
                [⟨some ⟨some [⟨some ⟨"https://a.com", "A", "a.com"⟩⟩],
                  some [⟨some ⟨"claim text"⟩, some [9/10], some [0]⟩]⟩⟩]).sources sid ++ d) :=
  ⟨ingest_monotone_and_duplicate.1 ⟨[], []⟩
      [⟨some ⟨some [⟨some ⟨"https://a.com", "A", "a.com"⟩⟩],
        some [⟨some ⟨"claim text"⟩, some [9/10], some [0]⟩]⟩⟩] (by decide),
    ingest_monotone_and_duplicate.2 ⟨[], []⟩
      ⟨some ⟨some [⟨some ⟨"https://a.com", "A", "a.com"⟩⟩],
        some [⟨some ⟨"claim text"⟩, some [9/10], some [0]⟩]⟩⟩ (by decide)⟩

/-- C6: for every grounding-support record, the claim appended for the `i`-th
referenced chunk index carries the `i`-th confidence score when position `i`
is valid in the score sequence, and exactly `0.5` (here `1/2`) when the score
sequence is absent or shorter than the index sequence. -/
theorem support_confidence_positional (ci : List (Int × String))
    (srcs : List (String × SourceRec)) (sp : GroundingSupport) (sid : String)
    (h : (dlookup sid srcs).isSome) :
    claimsOf (supportStep ci srcs sp) sid = claimsOf srcs sid ++ supportClaims ci sp sid := by
  unfold supportStep supportClaims
  exact supportClaimFold_claimsOf _ _ _ _ _ _ h

/-- Witness for C6: one support referencing chunk indices `[0, 1, 2]` with a
score list `[9/10]` shorter than the index list: position 0 gets `9/10`, the
out-of-range positions get `1/2`. -/
theorem support_confidence_positional_witness :
    claimsOf
        (supportStep [(0, "src-1"), (1, "src-1")]
          [("src-1", ⟨"src-1", some "A", "https://a.com", some "a.com",
            [⟨"old", 1⟩]⟩)]
          ⟨some ⟨"claim text"⟩, some [9/10], some [0, 1, 5]⟩)
        "src-1" =
      [⟨"old", 1⟩] ++ [⟨"claim text", 9/10⟩, ⟨"claim text", 1/2⟩] := by
  have h := support_confidence_positional [(0, "src-1"), (1, "src-1")]
    [("src-1", ⟨"src-1", some "A", "https://a.com", some "a.com", [⟨"old", 1⟩]⟩)]
    ⟨some ⟨"claim text"⟩, some [9/10], some [0, 1, 5]⟩ "src-1" (by decide)
  rw [h]
  rfl


/-! ### Renderer lemmas: fuel adequacy and scanning -/

theorem dropLit_length :
    ∀ (ls cs r : List Char), dropLit ls cs = some r → r.length + ls.length = cs.length := by
  intro ls
  induction ls with
  | nil =>
    intro cs r h
    simp only [dropLit, Option.some.injEq] at h
    simp [h]
  | cons l ls ih =>
    intro cs r h
    rcases cs with _ | ⟨c, cs⟩
    · simp [dropLit] at h
    · by_cases hc : c = l
      · simp only [dropLit, hc, if_pos] at h
        have := ih cs r h
        simp only [List.length_cons]
        omega
      · simp [dropLit, hc] at h

theorem dropWhile_length_le (p : Char → Bool) :
    ∀ (cs : List Char), (cs.dropWhile p).length ≤ cs.length := by
  intro cs
  induction cs with
  | nil => simp [List.dropWhile]
  | cons c cs ih =>
    by_cases hc : p c
    · simp only [List.dropWhile, hc]
      simp only [List.length_cons]
      omega
    · simp only [List.dropWhile, hc]
      simp

theorem wsStar_length_le (cs : List Char) : (wsStar cs).length ≤ cs.length :=
  dropWhile_length_le pySpace cs

theorem ws1_length {cs r : List Char} (h : ws1 cs = some r) : r.length < cs.length := by
  rcases cs with _ | ⟨c, cs⟩
  · simp [ws1] at h
  · by_cases hc : pySpace c
    · simp only [ws1, hc, if_pos, Option.some.injEq] at h
      subst h
      have := dropWhile_length_le pySpace cs
      simp only [List.length_cons]
      omega
    · simp [ws1, hc] at h

theorem optQuote_length_le (cs : List Char) : (optQuote cs).length ≤ cs.length := by
  rcases cs with _ | ⟨c, cs⟩
  · simp [optQuote]
  · by_cases hc : c = '"' || c = '\''
    · simp only [optQuote, hc, if_pos]
      simp
    · simp only [optQuote, hc, if_neg]
      simp

theorem parseCite_length {cs : List Char} {sid : String} {rem : List Char}
    (h : parseCite cs = some (sid, rem)) : rem.length < cs.length := by
  unfold parseCite at h
  rcases ha : dropLit ['<', 'c', 'i', 't', 'e'] cs with _ | a
  · rw [ha] at h; cases h
  rw [ha] at h
  simp only [Option.bind_some, Option.some_bind] at h
  rcases hb : ws1 a with _ | b
  · rw [hb] at h; cases h
  rw [hb] at h
  simp only [Option.some_bind] at h
  rcases hc : dropLit ['s', 'o', 'u', 'r', 'c', 'e'] b with _ | c
  · rw [hc] at h; cases h
  rw [hc] at h
  simp only [Option.some_bind] at h
  rcases hd : dropLit ['='] (wsStar c) with _ | d
  · rw [hd] at h; cases h
  rw [hd] at h
  simp only [Option.some_bind] at h
  rcases hf : dropLit ['s', 'r', 'c', '-'] (wsStar (optQuote (wsStar d))) with _ | f
  · rw [hf] at h; cases h
  rw [hf] at h
  simp only [Option.some_bind] at h
  by_cases hdig : (f.takeWhile Char.isDigit).isEmpty
  · rw [if_pos hdig] at h; cases h
  rw [if_neg hdig] at h
  rcases hg : dropLit ['/', '>'] (wsStar (optQuote (wsStar (f.dropWhile Char.isDigit)))) with _ | g
  · rw [hg] at h; cases h
  rw [hg] at h
  simp only [Option.map_some', Option.some.injEq, Prod.mk.injEq] at h
  obtain ⟨-, hrem⟩ := h
  subst hrem
  have l1 := dropLit_length _ _ _ ha
  have l2 := ws1_length hb
  have l3 := dropLit_length _ _ _ hc
  have l4 := dropLit_length _ _ _ hd
  have l5 := dropLit_length _ _ _ hf
  have l6 := dropLit_length _ _ _ hg
  have m1 := wsStar_length_le c
  have m2 := wsStar_length_le d
  have m3 := optQuote_length_le (wsStar d)
  have m4 := wsStar_length_le (optQuote (wsStar d))
  have m5 := dropWhile_length_le Char.isDigit f
  have m6 := wsStar_length_le (f.dropWhile Char.isDigit)
  have m7 := optQuote_length_le (wsStar (f.dropWhile Char.isDigit))
  have m8 := wsStar_length_le (optQuote (wsStar (f.dropWhile Char.isDigit)))
  simp only [List.length_cons, List.length_nil] at l1 l3 l4 l5 l6
  omega

theorem parseCite_head {cs : List Char} {x : String × List Char}
    (h : parseCite cs = some x) : ∃ t, cs = '<' :: t := by
  rcases cs with _ | ⟨c, cs⟩
  · simp [parseCite, dropLit] at h
  · by_cases hc : c = '<'
    · exact ⟨cs, by rw [hc]⟩
    · simp [parseCite, dropLit, hc] at h

theorem subCiteAux_congr (sources : List (String × SourceRec)) :
    ∀ (f g : Nat) (cs : List Char), cs.length ≤ f → cs.length ≤ g →
      subCiteAux sources f cs = subCiteAux sources g cs := by
  intro f
  induction f with
  | zero =>
    intro g cs hf _
    have : cs = [] := List.length_eq_zero.mp (by omega)
    subst this
    rcases g with _ | g
    · rfl
    · rfl
  | succ f ih =>
    intro g cs hf hg
    rcases cs with _ | ⟨c, cs⟩
    · rcases g with _ | g
      · rfl
      · rfl
    rcases g with _ | g
    · simp at hg
    simp only [subCiteAux]
    rcases hp : parseCite (c :: cs) with _ | ⟨sid, rem⟩
    · dsimp only
      have hlen : cs.length ≤ f := by simp at hf; omega
      have hlen' : cs.length ≤ g := by simp at hg; omega
      rw [ih g cs hlen hlen']
    · dsimp only
      have hrem := parseCite_length hp
      simp only [List.length_cons] at hrem hf hg
      rw [ih g rem (by omega) (by omega)]

theorem cleanupAux_congr :
    ∀ (f g : Nat) (cs : List Char), cs.length ≤ f → cs.length ≤ g →
      cleanupAux f cs = cleanupAux g cs := by
  intro f
  induction f with
  | zero =>
    intro g cs hf _
    have : cs = [] := List.length_eq_zero.mp (by omega)
    subst this
    rcases g with _ | g
    · rfl
    · rfl
  | succ f ih =>
    intro g cs hf hg
    rcases cs with _ | ⟨c, cs⟩
    · rcases g with _ | g
      · rfl
      · rfl
    rcases g with _ | g
    · simp at hg
    simp only [cleanupAux]
    simp only [List.length_cons] at hf hg
    by_cases hsp : pySpace c
    · simp only [hsp, if_pos]
      rcases hdw : cs.dropWhile pySpace with _ | ⟨p, rest2⟩
      · dsimp only
        rw [ih g cs (by omega) (by omega)]
      · dsimp only
        have hr2 : rest2.length < cs.length := by
          have := dropWhile_length_le pySpace cs
          rw [hdw] at this
          simp only [List.length_cons] at this
          omega
        by_cases hpc : punctChar p
        · simp only [hpc, if_pos]
          rw [ih g rest2 (by omega) (by omega)]
        · rw [Bool.not_eq_true] at hpc
          simp only [hpc, Bool.false_eq_true, if_false]
          rw [ih g cs (by omega) (by omega)]
    · rw [Bool.not_eq_true] at hsp
      simp only [hsp, Bool.false_eq_true, if_false]
      rw [ih g cs (by omega) (by omega)]

theorem parseCite_none_of_head_ne {c : Char} (rest : List Char) (hc : c ≠ '<') :
    parseCite (c :: rest) = none := by
  simp [parseCite, dropLit, hc]

theorem subCiteAux_append_no_lt (sources : List (String × SourceRec)) :
    ∀ (a t : List Char) (f : Nat), '<' ∉ a → (a ++ t).length ≤ f →
      subCiteAux sources f (a ++ t) = a ++ subCiteAux sources t.length t := by
  intro a
  induction a with
  | nil =>
    intro t f _ hf
    simpa using subCiteAux_congr sources f t.length t (by simpa using hf) (le_refl _)
  | cons c a ih =>
    intro t f hlt hf
    have hc : c ≠ '<' := fun hcc => hlt (hcc ▸ List.mem_cons_self _ _)
    rcases f with _ | f
    · simp at hf
    simp only [List.cons_append, subCiteAux, parseCite_none_of_head_ne _ hc]
    have hlt' : '<' ∉ a := fun hm => hlt (List.mem_cons_of_mem _ hm)
    simp only [List.cons_append, List.length_cons, List.length_append] at hf
    simp only [List.append_eq]
    rw [ih t f hlt' (by simp [List.length_append]; omega)]

theorem subCite_append_no_lt (sources : List (String × SourceRec)) (a t : List Char)
    (h : '<' ∉ a) : subCite sources (a ++ t) = a ++ subCite sources t := by
  unfold subCite
  exact subCiteAux_append_no_lt sources a t _ h (le_refl _)

theorem subCite_no_lt (sources : List (String × SourceRec)) (a : List Char)
    (h : '<' ∉ a) : subCite sources a = a := by
  have h1 := subCite_append_no_lt sources a [] h
  have h0 : subCite sources ([] : List Char) = [] := rfl
  rw [h0] at h1
  simpa using h1

/-- The canonical well-formed marker `<cite source="src-DIGITS" />`. -/
def markerOf (ds : List Char) : List Char :=
  ('<' :: 'c' :: 'i' :: 't' :: 'e' :: ' ' :: 's' :: 'o' :: 'u' :: 'r' :: 'c' :: 'e' ::
    '=' :: '"' :: 's' :: 'r' :: 'c' :: '-' :: []) ++ ds ++ ('"' :: ' ' :: '/' :: '>' :: [])

theorem takeWhile_append_all (p : Char → Bool) :
    ∀ (l : List Char) (c : Char) (t : List Char), (∀ x ∈ l, p x = true) → p c = false →
      (l ++ c :: t).takeWhile p = l ∧ (l ++ c :: t).dropWhile p = c :: t := by
  intro l
  induction l with
  | nil =>
    intro c t _ hc
    simp [List.takeWhile, List.dropWhile, hc]
  | cons x l ih =>
    intro c t hall hc
    have hx : p x = true := hall x (List.mem_cons_self _ _)
    have hl : ∀ y ∈ l, p y = true := fun y hy => hall y (List.mem_cons_of_mem _ hy)
    obtain ⟨ht, hd⟩ := ih c t hl hc
    constructor
    · simp only [List.cons_append, List.takeWhile, hx, List.append_eq, ht]
    · simp only [List.cons_append, List.dropWhile, hx, List.append_eq, hd]

theorem parseCite_marker (ds b : List Char) (hne : ds ≠ [])
    (hdig : ∀ c ∈ ds, c.isDigit = true) :
    parseCite (markerOf ds ++ b) =
      some (String.mk ('s' :: 'r' :: 'c' :: '-' :: ds), b) := by
  have harg : markerOf ds ++ b =
      ('<' :: 'c' :: 'i' :: 't' :: 'e' :: ' ' :: 's' :: 'o' :: 'u' :: 'r' :: 'c' :: 'e' ::
        '=' :: '"' :: 's' :: 'r' :: 'c' :: '-' :: []) ++
        (ds ++ ('"' :: ' ' :: '/' :: '>' :: b)) := by
    simp [markerOf]
  rw [harg]
  have hstep : ∀ X : List Char,
      parseCite (('<' :: 'c' :: 'i' :: 't' :: 'e' :: ' ' :: 's' :: 'o' :: 'u' :: 'r' ::
          'c' :: 'e' :: '=' :: '"' :: 's' :: 'r' :: 'c' :: '-' :: []) ++ X) =
        (if (X.takeWhile Char.isDigit).isEmpty then none
         else
           (dropLit ['/', '>']
               (wsStar (optQuote (wsStar (X.dropWhile Char.isDigit))))).map fun h =>
             (String.mk ('s' :: 'r' :: 'c' :: '-' :: X.takeWhile Char.isDigit), h)) :=
    fun X => rfl
  rw [hstep]
  obtain ⟨htake, hdrop⟩ :=
    takeWhile_append_all Char.isDigit ds '"' (' ' :: '/' :: '>' :: b) hdig (by decide)
  rw [htake, hdrop]
  have hempty : ds.isEmpty = false := by
    cases ds
    · exact absurd rfl hne
    · rfl
  rw [hempty]
  simp only [Bool.false_eq_true, if_false]
  rfl

/-- Scanning `a ++ markerOf ds ++ b` with `a` marker-free replaces exactly the
marker (the whole scan of the suffix continues on `b`). -/
theorem subCite_split (sources : List (String × SourceRec)) (ds a b : List Char)
    (hne : ds ≠ []) (hdig : ∀ c ∈ ds, c.isDigit = true) (ha : '<' ∉ a) :
    subCite sources (a ++ markerOf ds ++ b) =
      a ++ tag_replacer sources (String.mk ('s' :: 'r' :: 'c' :: '-' :: ds)) ++
        subCite sources b := by
  rw [List.append_assoc, subCite_append_no_lt sources a (markerOf ds ++ b) ha]
  have hparse := parseCite_marker ds b hne hdig
  have hm : markerOf ds ++ b = '<' :: (List.tail (markerOf ds ++ b)) := by
    simp [markerOf]
  unfold subCite
  rcases hmb : markerOf ds ++ b with _ | ⟨c, rest⟩
  · rw [hmb] at hm
    simp at hm
  have hc : c = '<' := by
    rw [hmb] at hm
    exact (List.cons.injEq _ _ _ _ ▸ hm).1
  rw [hmb] at hparse
  simp only [List.length_cons, subCiteAux, hparse]
  have hblen : b.length ≤ rest.length := by
    have := congrArg List.length hmb
    simp only [List.length_append, List.length_cons, markerOf] at this
    simp only [List.length_append, List.length_cons, List.length_nil] at this
    omega
  rw [subCiteAux_congr sources rest.length b.length b hblen (le_refl _)]
  simp [List.append_assoc]

theorem mem_of_mem_dropWhile (p : Char → Bool) :
    ∀ (l : List Char) (x : Char), x ∈ l.dropWhile p → x ∈ l := by
  intro l
  induction l with
  | nil => intro x h; simp [List.dropWhile] at h
  | cons c cs ih =>
    intro x h
    by_cases hc : p c
    · simp only [List.dropWhile, hc] at h
      exact List.mem_cons_of_mem _ (ih x h)
    · rw [Bool.not_eq_true] at hc
      simp only [List.dropWhile, hc] at h
      exact h

theorem no_lt_cleanupAux :
    ∀ (f : Nat) (cs : List Char), '<' ∉ cs → '<' ∉ cleanupAux f cs := by
  intro f
  induction f with
  | zero => intro cs h; exact h
  | succ f ih =>
    intro cs h
    rcases cs with _ | ⟨c, cs⟩
    · simp [cleanupAux]
    have hc : ('<' : Char) ≠ c := fun hcc => h (hcc ▸ List.mem_cons_self _ _)
    have hcs : '<' ∉ cs := fun hm => h (List.mem_cons_of_mem _ hm)
    simp only [cleanupAux]
    by_cases hsp : pySpace c
    · simp only [hsp, if_pos]
      rcases hdw : cs.dropWhile pySpace with _ | ⟨p, rest2⟩
      · dsimp only
        intro hmem
        rcases List.mem_cons.mp hmem with h1 | h1
        · exact hc h1
        · exact ih cs hcs h1
      · dsimp only
        have hpmem : p ∈ cs := by
          apply mem_of_mem_dropWhile pySpace
          rw [hdw]
          exact List.mem_cons_self _ _
        have hrest2 : '<' ∉ rest2 := by
          intro hm
          apply hcs
          apply mem_of_mem_dropWhile pySpace
          rw [hdw]
          exact List.mem_cons_of_mem _ hm
        by_cases hpc : punctChar p
        · simp only [hpc, if_pos]
          intro hmem
          rcases List.mem_cons.mp hmem with h1 | h1
          · exact hcs (h1 ▸ hpmem)
          · exact ih rest2 hrest2 h1
        · rw [Bool.not_eq_true] at hpc
          simp only [hpc, Bool.false_eq_true, if_false]
          intro hmem
          rcases List.mem_cons.mp hmem with h1 | h1
          · exact hc h1
          · exact ih cs hcs h1
    · rw [Bool.not_eq_true] at hsp
      simp only [hsp, Bool.false_eq_true, if_false]
      intro hmem
      rcases List.mem_cons.mp hmem with h1 | h1
      · exact hc h1
      · exact ih cs hcs h1

theorem no_lt_cleanup {cs : List Char} (h : '<' ∉ cs) : '<' ∉ cleanup cs :=
  no_lt_cleanupAux _ cs h

theorem hasCite_of_no_lt : ∀ (cs : List Char), '<' ∉ cs → hasCite cs = false := by
  intro cs
  induction cs with
  | nil => intro _; rfl
  | cons c rest ih =>
    intro h
    have hc : c ≠ '<' := fun hcc => h (hcc ▸ List.mem_cons_self _ _)
    have hrest : '<' ∉ rest := fun hm => h (List.mem_cons_of_mem _ hm)
    simp only [hasCite, parseCite_none_of_head_ne _ hc, Option.isSome_none, Bool.false_or]
    exact ih hrest

theorem hasCite_cons_false {c : Char} {rest : List Char} (h : hasCite (c :: rest) = false) :
    parseCite (c :: rest) = none ∧ hasCite rest = false := by
  simp only [hasCite, Bool.or_eq_false_iff] at h
  refine ⟨?_, h.2⟩
  rcases hp : parseCite (c :: rest) with _ | x
  · rfl
  · rw [hp] at h
    simp at h

theorem subCiteAux_id_of_no_marker :
    ∀ (f : Nat) (sources : List (String × SourceRec)) (cs : List Char),
      hasCite cs = false → subCiteAux sources f cs = cs := by
  intro f
  induction f with
  | zero => intro sources cs _; rfl
  | succ f ih =>
    intro sources cs h
    rcases cs with _ | ⟨c, rest⟩
    · rfl
    obtain ⟨hp, hrest⟩ := hasCite_cons_false h
    simp only [subCiteAux, hp]
    rw [ih sources rest hrest]

/-- C4 (amended): the implemented marker grammar makes each quote independently
optional, so an unquoted (or mismatched-quoted) id is a well-formed marker and
IS replaced; text with no occurrence of the implemented grammar passes the
citation-substitution stage verbatim, and render then applies only the
whitespace-before-punctuation cleanup to it. -/
theorem malformed_marker_verbatim (sources : List (String × SourceRec)) (cs : List Char)
    (h : hasCite cs = false) :
    subCite sources cs = cs ∧ render (String.mk cs) sources = String.mk (cleanup cs) := by
  have h1 : subCite sources cs = cs := subCiteAux_id_of_no_marker _ sources cs h
  refine ⟨h1, ?_⟩
  unfold render
  have hdata : (String.mk cs).data = cs := rfl
  rw [hdata, h1]

/-- Witness for C4: `<cite source="abc" />` fails the grammar (`abc` is not
`src-` plus digits) and comes out of `render` completely untouched. -/
theorem malformed_marker_verbatim_witness :
    subCite [] "<cite source=\"abc\" />".data = "<cite source=\"abc\" />".data ∧
      render "<cite source=\"abc\" />" [] = "<cite source=\"abc\" />" := by
  have h := malformed_marker_verbatim [] "<cite source=\"abc\" />".data (by decide)
  refine ⟨h.1, ?_⟩
  have h2 := h.2
  have hcl : String.mk (cleanup "<cite source=\"abc\" />".data) =
      "<cite source=\"abc\" />" := by decide
  rw [hcl] at h2
  exact h2

/-- C4 counterexample: the claim says a marker whose id is not wrapped in
quotes is not replaced; in fact the pattern's quotes are optional and
`<cite source=src-1 />` IS replaced (and the output is not the input). -/
theorem unquoted_marker_replaced_counterexample :
    (render "A <cite source=src-1 />"
        [("src-1", ⟨"src-1", some "T", "u", some "d", []⟩)] = "A  [T](u)") ∧
      render "A <cite source=src-1 />"
        [("src-1", ⟨"src-1", some "T", "u", some "d", []⟩)] ≠
        "A <cite source=src-1 />" := by
  constructor
  · decide
  · decide

/-- C3 counterexample: on the spec's own example the code returns TWO spaces
between `grew` and the link (the replacement's leading space joins the space
already before the marker, and the cleanup pass only collapses whitespace
before `.,;:`), not the single space the claim states. -/
theorem render_example_counterexample :
    render "Revenue grew <cite source=\"src-1\" /> , says report."
        [("src-1", ⟨"src-1", some "A", "https://a.com", some "a.com", []⟩)] ≠
      "Revenue grew [A](https://a.com), says report." := by decide

/-- C3 (amended): the example render returns
`"Revenue grew  [A](https://a.com), says report."` — the marker is replaced by
a leading space plus the link (doubling the pre-existing space) and the
space before the comma is collapsed. -/
theorem render_example_actual :
    render "Revenue grew <cite source=\"src-1\" /> , says report."
        [("src-1", ⟨"src-1", some "A", "https://a.com", some "a.com", []⟩)] =
      "Revenue grew  [A](https://a.com), says report." := by decide

/-- C2 (amended): a marker whose id is present in the sources mapping is
replaced by a single leading space followed by `[display](url)` with `url`
taken verbatim — but `display` is read with `dict.get`, so it equals the
stored title value whenever the `title` key is present (even when the title is
the empty string); the domain is used only when the `title` key is absent, and
the short id only when the `domain` key is also absent. -/
theorem present_marker_replaced (sources : List (String × SourceRec)) (ds a b : List Char)
    (hne : ds ≠ []) (hdig : ∀ c ∈ ds, c.isDigit = true) (ha : '<' ∉ a) (si : SourceRec)
    (hsi : dlookup (String.mk ('s' :: 'r' :: 'c' :: '-' :: ds)) sources = some si) :
    render (String.mk (a ++ markerOf ds ++ b)) sources =
      String.mk (cleanup (a ++
        (" [" ++ si.title.getD (si.domain.getD (String.mk ('s' :: 'r' :: 'c' :: '-' :: ds))) ++
          "](" ++ si.url ++ ")").data ++ subCite sources b)) := by
  unfold render
  have hdata : (String.mk (a ++ markerOf ds ++ b)).data = a ++ markerOf ds ++ b := rfl
  rw [hdata, subCite_split sources ds a b hne hdig ha]
  unfold tag_replacer
  rw [hsi]

/-- Witness for C2 (amended): a present id with a non-empty title renders as
a space plus `[title](url)`. -/
theorem present_marker_replaced_witness :
    render (String.mk ('q' :: [] ++ markerOf ['1'] ++ []))
        [("src-1", ⟨"src-1", some "T", "u", some "d", []⟩)] =
      String.mk (cleanup ('q' :: [] ++
        (" [" ++ (some "T").getD ((some "d").getD
            (String.mk ('s' :: 'r' :: 'c' :: '-' :: ['1']))) ++
          "](" ++ "u" ++ ")").data ++
        subCite [("src-1", ⟨"src-1", some "T", "u", some "d", []⟩)] [])) :=
  present_marker_replaced [("src-1", ⟨"src-1", some "T", "u", some "d", []⟩)]
    ['1'] ('q' :: []) [] (by decide) (by decide) (by decide)
    ⟨"src-1", some "T", "u", some "d", []⟩ (by decide)

/-- C2 counterexample: with a stored empty title and domain `a.com`, the claim
says the display falls back to the domain, so the output would be
`"q [a.com](u)"`; the code displays the empty title and returns `"q [](u)"`. -/
theorem empty_title_display_counterexample :
    (render "q<cite source=\"src-1\" />"
        [("src-1", ⟨"src-1", some "", "u", some "a.com", []⟩)] = "q [](u)") ∧
      render "q<cite source=\"src-1\" />"
        [("src-1", ⟨"src-1", some "", "u", some "a.com", []⟩)] ≠ "q [a.com](u)" := by
  constructor
  · decide
  · decide

/-- C7 (amended): a well-formed marker whose id is absent from the sources is
replaced by the empty string in the single left-to-right substitution pass, and
when the replacement cannot juxtapose surrounding text into a new marker (for
instance when the marker is not nested inside other citation-like syntax —
here: no `<` around it), the output contains no residual marker syntax.  The
pass does not rescan its output, so nesting CAN leave a well-formed marker
behind (see the counterexample). -/
theorem absent_marker_elided (sources : List (String × SourceRec)) (ds a b : List Char)
    (hne : ds ≠ []) (hdig : ∀ c ∈ ds, c.isDigit = true) (ha : '<' ∉ a) (hb : '<' ∉ b)
    (habsent : dlookup (String.mk ('s' :: 'r' :: 'c' :: '-' :: ds)) sources = none) :
    render (String.mk (a ++ markerOf ds ++ b)) sources = String.mk (cleanup (a ++ b)) ∧
      hasCite (render (String.mk (a ++ markerOf ds ++ b)) sources).data = false := by
  have hmain : render (String.mk (a ++ markerOf ds ++ b)) sources =
      String.mk (cleanup (a ++ b)) := by
    unfold render
    have hdata : (String.mk (a ++ markerOf ds ++ b)).data = a ++ markerOf ds ++ b := rfl
    rw [hdata, subCite_split sources ds a b hne hdig ha]
    unfold tag_replacer
    rw [habsent, subCite_no_lt sources b hb]
    simp
  refine ⟨hmain, ?_⟩
  rw [hmain]
  have hab : '<' ∉ a ++ b := by
    intro hm
    rcases List.mem_append.mp hm with h1 | h1
    · exact ha h1
    · exact hb h1
  exact hasCite_of_no_lt _ (no_lt_cleanup hab)

/-- Witness for C7 (amended): an absent id between plain text is elided and
the output holds no marker. -/
theorem absent_marker_elided_witness :
    (render (String.mk ('x' :: [] ++ markerOf ['7'] ++ ('y' :: []))) [] =
        String.mk (cleanup ('x' :: [] ++ 'y' :: []))) ∧
      hasCite (render (String.mk ('x' :: [] ++ markerOf ['7'] ++ ('y' :: []))) []).data =
        false :=
  absent_marker_elided [] ['7'] ('x' :: []) ('y' :: []) (by decide) (by decide)
    (by decide) (by decide) (by decide)

/-- C7 counterexample: eliding the inner marker of
`<cite source="src-1" <cite source="src-2" /> />` (empty sources) juxtaposes
the remaining text into the well-formed marker `<cite source="src-1"  />`,
so the output DOES contain residual marker syntax. -/
theorem residual_marker_counterexample :
    hasCite (render "<cite source=\"src-1\" <cite source=\"src-2\" /> />" []).data =
      true := by decide

/-- Witness for C1: one invocation over one event with one web chunk yields the
index keyed `https://a.com ↦ src-1`, in first-seen order, and the injectivity
part applies at that concrete entry. -/
theorem urlIndex_contiguous_first_seen_injective_witness :
    keysOf (runCallbacks [[⟨some ⟨some [⟨some ⟨"https://a.com", "A", "a.com"⟩⟩],
          none⟩⟩]]).url_to_short_id =
        dedupFirst (allUrls [[⟨some ⟨some [⟨some ⟨"https://a.com", "A", "a.com"⟩⟩],
          none⟩⟩]]) ∧
      "https://a.com" = "https://a.com" :=
  ⟨(urlIndex_contiguous_first_seen_injective
      [[⟨some ⟨some [⟨some ⟨"https://a.com", "A", "a.com"⟩⟩], none⟩⟩]]).2.1,
    (urlIndex_contiguous_first_seen_injective
      [[⟨some ⟨some [⟨some ⟨"https://a.com", "A", "a.com"⟩⟩], none⟩⟩]]).2.2
      "https://a.com" "https://a.com" "src-1" (by decide) (by decide)⟩
